import Mathlib

/-!
Verification of the chainbot workflow-orchestration backend.

This file gives a shallow embedding, in Lean 4, of the parts of the
Python source under `backend/app/services` that the frozen claims are
about, and proves or refutes each claim.

Conventions of the embedding:
* Python values that flow through the orchestrator (JSON-like data) are
  modelled by the inductive type `PyVal`.
* Python `dict`s are modelled as association lists in insertion order;
  lookup takes the first matching key, matching the uniqueness of keys
  in a real `dict`.
* Python strings are modelled as `String`; the string operations the
  source uses (`in`, `replace`, `split(sep, 1)`, `strip`, `lower`) are
  implemented on `List Char` and proved about directly.
* Functions that may raise return `Option`/`Except`; a surrounding
  `try/except` in the source becomes a `getD`/`match` on the result.
* CPython's `eval` (used by `_evaluate_expression`) cannot be embedded in
  full; evaluators are parameterised over an oracle
  `pev : String → List (String × PyVal) → Option PyVal` standing for
  `eval` under the restricted globals, with `none` for a raised
  exception.  A small executable fragment `pyEvalFrag`, exact for the
  concrete inputs used in counterexamples, instantiates the oracle.
-/

namespace Chainbot

/-- JSON-like Python values used by the orchestrator. -/
inductive PyVal where
  | vnone : PyVal
  | vbool : Bool → PyVal
  | vint : Int → PyVal
  | vstr : String → PyVal
  | vlist : List PyVal → PyVal
  | vdict : List (String × PyVal) → PyVal

/-- First-match lookup in an association list, as Python `dict` access. -/
def lookupA {α : Type} (kvs : List (String × α)) (k : String) : Option α :=
  match kvs with
  | [] => none
  | (k0, v0) :: rest => if k0 = k then some v0 else lookupA rest k

/-- Python `d[k] = v` on an association list: overwrite the first binding
of `k` if present, else append. -/
def upsertA {α : Type} (kvs : List (String × α)) (k : String) (v : α) :
    List (String × α) :=
  match kvs with
  | [] => [(k, v)]
  | (k0, v0) :: rest =>
    if k0 = k then (k0, v) :: rest else (k0, v0) :: upsertA rest k v

/-- Whether `pat` is a prefix of `s` (over characters). -/
def startsWithPat : List Char → List Char → Bool
  | [], _ => true
  | _ :: _, [] => false
  | p :: ps, c :: cs => p = c && startsWithPat ps cs

/-- Python `pat in s`: `pat` occurs as a contiguous substring of `s`. -/
def containsSub : List Char → List Char → Bool
  | [], pat => startsWithPat pat []
  | c :: rest, pat => startsWithPat pat (c :: rest) || containsSub rest pat

/-- Python `pat in s` on `String`s. -/
def strContains (s pat : String) : Bool :=
  containsSub s.data pat.data

/-- Python `s.replace(pat, rep)`: replace all non-overlapping occurrences
left to right.  The source only ever calls it with the non-empty pattern
`"${" ++ name ++ "}"`, so the empty-pattern corner of `str.replace` is
out of the modelled domain (here the empty pattern replaces nothing). -/
def replaceAll (pat rep : List Char) : List Char → List Char
  | [] => []
  | c :: rest =>
    if h : pat ≠ [] ∧ startsWithPat pat (c :: rest) then
      rep ++ replaceAll pat rep ((c :: rest).drop pat.length)
    else
      c :: replaceAll pat rep rest
termination_by s => s.length
decreasing_by
  · simp only [List.length_drop, List.length_cons]
    have hp : pat.length ≠ 0 := fun h0 => h.1 (List.length_eq_zero.mp h0)
    omega
  · simp

/-- Python `s.replace(pat, rep)` on `String`s. -/
def strReplace (s pat rep : String) : String :=
  ⟨replaceAll pat.data rep.data s.data⟩

/-- Python `s.split(sep, 1)` for an occurring separator: the text before
the first occurrence of `sep` and the text after it. -/
def splitOnce (sep : List Char) : List Char → Option (List Char × List Char)
  | [] => if sep = [] then some ([], []) else none
  | c :: rest =>
    if startsWithPat sep (c :: rest) ∧ sep ≠ [] then
      some ([], (c :: rest).drop sep.length)
    else
      match splitOnce sep rest with
      | some (l, r) => some (c :: l, r)
      | none => none

/-- Python `s.split(sep, 1)` on `String`s, when `sep` occurs in `s`. -/
def strSplitOnce (s sep : String) : Option (String × String) :=
  match splitOnce sep.data s.data with
  | some (l, r) => some (⟨l⟩, ⟨r⟩)
  | none => none

/-- Python whitespace test for `str.strip`. -/
def isPySpace (c : Char) : Bool :=
  c = ' ' || c = Char.ofNat 9 || c = Char.ofNat 10 || c = Char.ofNat 13

/-- Python `s.strip()`: drop whitespace from both ends. -/
def stripChars (s : List Char) : List Char :=
  ((s.dropWhile isPySpace).reverse.dropWhile isPySpace).reverse

/-- Python `s.strip()` on `String`s. -/
def strStrip (s : String) : String := ⟨stripChars s.data⟩

/-- Python `s.lower()` (ASCII view, which covers the source's key and
needle comparisons). -/
def strLower (s : String) : String := ⟨s.data.map Char.toLower⟩

/-- The ASCII apostrophe used by Python `repr` of strings. -/
def quoteChar : Char := Char.ofNat 39

/-- Opening brace as a string (used when printing dicts). -/
def obr : String := "\x7b"

/-- Closing brace as a string (used when printing dicts). -/
def cbr : String := "\x7d"

mutual
/-- Python `repr(v)` for the modelled values (string escaping is not
modelled; none of the values we evaluate on need it). -/
def pyRepr : PyVal → String
  | .vnone => "None"
  | .vbool b => if b then "True" else "False"
  | .vint n => toString n
  | .vstr s => ⟨quoteChar :: (s.data ++ [quoteChar])⟩
  | .vlist xs => "[" ++ pyReprList xs ++ "]"
  | .vdict kvs => obr ++ pyReprDict kvs ++ cbr

/-- Comma-joined reprs of list elements. -/
def pyReprList : List PyVal → String
  | [] => ""
  | [x] => pyRepr x
  | x :: y :: rest => pyRepr x ++ ", " ++ pyReprList (y :: rest)

/-- Comma-joined reprs of dict entries. -/
def pyReprDict : List (String × PyVal) → String
  | [] => ""
  | [(k, v)] => ⟨quoteChar :: (k.data ++ [quoteChar])⟩ ++ ": " ++ pyRepr v
  | (k, v) :: e :: rest =>
    ⟨quoteChar :: (k.data ++ [quoteChar])⟩ ++ ": " ++ pyRepr v ++ ", " ++
      pyReprDict (e :: rest)
end

/-- Python `str(v)`: like `repr` except that strings print unquoted. -/
def pyStr : PyVal → String
  | .vstr s => s
  | v => pyRepr v

/-- Python truthiness `bool(v)`. -/
def pyTruthy : PyVal → Bool
  | .vnone => false
  | .vbool b => b
  | .vint n => n ≠ 0
  | .vstr s => s ≠ ""
  | .vlist xs => ¬ xs.isEmpty
  | .vdict kvs => ¬ kvs.isEmpty

mutual
/-- Python `==` on the modelled values.  `bool` compares equal to the
corresponding `int`, as in Python; dict comparison is first-key-lookup
based, which agrees with Python on duplicate-free dicts. -/
def pyEq : PyVal → PyVal → Bool
  | .vnone, .vnone => true
  | .vbool a, .vbool b => a = b
  | .vbool a, .vint n => (if a then (1 : Int) else 0) = n
  | .vint n, .vbool a => n = (if a then (1 : Int) else 0)
  | .vint a, .vint b => a = b
  | .vstr a, .vstr b => a = b
  | .vlist a, .vlist b => pyEqList a b
  | .vdict a, .vdict b => pyEqDict a b && a.length = b.length
  | _, _ => false

/-- Elementwise Python `==` on lists. -/
def pyEqList : List PyVal → List PyVal → Bool
  | [], [] => true
  | a :: as_, b :: bs => pyEq a b && pyEqList as_ bs
  | _, _ => false

/-- Every entry of the first dict matches a binding in the second. -/
def pyEqDict : List (String × PyVal) → List (String × PyVal) → Bool
  | [], _ => true
  | (k, v) :: rest, b =>
    (match lookupA b k with
     | some w => pyEq v w
     | none => false) && pyEqDict rest b
end

/-! ### C5 — `_interpolate_variables` (workflow_orchestrator.py, lines 513-524) -/

mutual
/-- Model of `WorkflowOrchestrator._interpolate_variables`.  For a string
template it folds over the bindings of `variables` in dict order,
replacing every occurrence of `"${" ++ key ++ "}"` by `str(value)`; for
dicts and lists it recurses; anything else passes through. -/
def interpolate_variables : PyVal → List (String × PyVal) → PyVal
  | .vstr s, vars0 =>
    .vstr (vars0.foldl
      (fun acc kv => strReplace acc ("$" ++ obr ++ kv.1 ++ cbr) (pyStr kv.2)) s)
  | .vdict kvs, vars0 => .vdict (interpolateDict kvs vars0)
  | .vlist xs, vars0 => .vlist (interpolateList xs vars0)
  | t, _ => t

/-- Entrywise interpolation of a dict template. -/
def interpolateDict :
    List (String × PyVal) → List (String × PyVal) → List (String × PyVal)
  | [], _ => []
  | (k, v) :: rest, vars0 =>
    (k, interpolate_variables v vars0) :: interpolateDict rest vars0

/-- Elementwise interpolation of a list template. -/
def interpolateList : List PyVal → List (String × PyVal) → List PyVal
  | [], _ => []
  | x :: rest, vars0 =>
    interpolate_variables x vars0 :: interpolateList rest vars0
end

theorem startsWithPat_false_of_containsSub_false {s pat : List Char}
    (h : containsSub s pat = false) : startsWithPat pat s = false := by
  cases s with
  | nil => simpa [containsSub] using h
  | cons c rest =>
    rw [containsSub, Bool.or_eq_false_iff] at h
    exact h.1

theorem containsSub_tail_false {c : Char} {s pat : List Char}
    (h : containsSub (c :: s) pat = false) : containsSub s pat = false := by
  rw [containsSub, Bool.or_eq_false_iff] at h
  exact h.2

/-- `str.replace` is the identity when the pattern does not occur. -/
theorem replaceAll_of_not_contains (pat rep : List Char) :
    ∀ s : List Char, containsSub s pat = false → replaceAll pat rep s = s := by
  intro s
  induction s with
  | nil => intro _; simp [replaceAll]
  | cons c rest ih =>
    intro h
    rw [replaceAll, dif_neg, ih (containsSub_tail_false h)]
    intro hc
    have h1 := startsWithPat_false_of_containsSub_false h
    rw [hc.2] at h1
    exact Bool.true_eq_false.mp h1

/-- `str.replace` on `String`s is the identity when the pattern does not
occur. -/
theorem strReplace_of_not_contains (s pat rep : String)
    (h : containsSub s.data pat.data = false) : strReplace s pat rep = s := by
  unfold strReplace
  rw [replaceAll_of_not_contains pat.data rep.data s.data h]

/-- C5 counterexample: for the template `"${missing}"` and the empty
scope, `_interpolate_variables` returns the template unchanged — it does
not substitute the empty string for the unbound name, as the claim
states. -/
theorem c5_interpolation_counterexample :
    interpolate_variables (.vstr "$\x7bmissing\x7d") [] =
      .vstr "$\x7bmissing\x7d" ∧
    interpolate_variables (.vstr "$\x7bmissing\x7d") [] ≠ .vstr "" := by
  refine ⟨rfl, fun h => ?_⟩
  rw [show interpolate_variables (.vstr "$\x7bmissing\x7d") [] =
        .vstr "$\x7bmissing\x7d" from rfl] at h
  exact absurd (PyVal.vstr.inj h) (by decide)

/-- C5 (amended): interpolation of a string template successively
replaces, for each binding of the scope in dict order, every occurrence
of the binding's placeholder by the `str` form of its value; a
placeholder whose name is unbound in the scope is left verbatim (in
particular a string containing no scope placeholder is unchanged);
mappings and sequences recurse elementwise; values of other types are
returned unchanged. -/
theorem c5_interpolation_amended (s : String) (scope : List (String × PyVal))
    (k : String) (v : PyVal) (kvs : List (String × PyVal)) (xs : List PyVal)
    (n : Int) (b : Bool) :
    ((∀ kv ∈ scope,
        containsSub s.data ("$" ++ obr ++ kv.1 ++ cbr).data = false) →
      interpolate_variables (.vstr s) scope = .vstr s) ∧
    interpolate_variables (.vstr s) [(k, v)] =
      .vstr (strReplace s ("$" ++ obr ++ k ++ cbr) (pyStr v)) ∧
    interpolate_variables (.vdict kvs) scope =
      .vdict (interpolateDict kvs scope) ∧
    interpolate_variables (.vlist xs) scope =
      .vlist (interpolateList xs scope) ∧
    interpolate_variables (.vint n) scope = .vint n ∧
    interpolate_variables (.vbool b) scope = .vbool b ∧
    interpolate_variables .vnone scope = .vnone := by
  refine ⟨?_, rfl, rfl, rfl, rfl, rfl, rfl⟩
  intro hfree
  rw [interpolate_variables]
  congr 1
  induction scope with
  | nil => rfl
  | cons kv rest ih =>
    rw [List.foldl_cons,
      strReplace_of_not_contains s _ _ (hfree kv (List.mem_cons_self kv rest))]
    exact ih (fun kv2 h2 => hfree kv2 (List.mem_cons_of_mem kv h2))

/-- C5 witness: the amended theorem applied to the template
`"pre ${name} post"` with the one-binding scope `{name: 7}`, and its
no-placeholder clause applied to a template without placeholders. -/
theorem c5_interpolation_amended_witness :
    interpolate_variables (.vstr "pre $\x7bname\x7d post")
        [("name", .vint 7)] =
      .vstr (strReplace "pre $\x7bname\x7d post" ("$" ++ obr ++ "name" ++ cbr)
        (pyStr (.vint 7))) ∧
    interpolate_variables (.vstr "plain") [("name", .vint 7)] =
      .vstr "plain" := by
  constructor
  · exact (c5_interpolation_amended "pre $\x7bname\x7d post" [("name", .vint 7)]
      "name" (.vint 7) [] [] 0 false).2.1
  · exact (c5_interpolation_amended "plain" [("name", .vint 7)]
      "name" (.vint 7) [] [] 0 false).1 (by decide)

/-! ### C9 — conversation history bound (agent_brain.py, lines 336-365) -/

/-- One entry of a stored conversation: a `{"role": ..., "content": ...}`
dict of `AgentBrain.conversation_store`. -/
structure ChatMsg where
  role : String
  content : String
deriving DecidableEq

/-- The `max_history_length` constant of
`AgentBrain._update_conversation_history`. -/
def max_history_length : Nat := 20

/-- Model of `AgentBrain._update_conversation_history` on one agent's
stored history: append the user and assistant entries and keep the last
`max_history_length` entries. -/
def update_conversation_history (history : List ChatMsg)
    (user_message assistant_response : String) : List ChatMsg :=
  let extended := history ++
    [⟨"user", user_message⟩, ⟨"assistant", assistant_response⟩]
  if max_history_length < extended.length then
    extended.drop (extended.length - max_history_length)
  else
    extended

/-- The store-level effect of `_update_conversation_history`: a missing
agent id starts from the empty history. -/
def update_conversation_store (store : List (String × List ChatMsg))
    (agent_id user_message assistant_response : String) :
    List (String × List ChatMsg) :=
  upsertA store agent_id
    (update_conversation_history ((lookupA store agent_id).getD [])
      user_message assistant_response)

theorem lookupA_upsertA_self {α : Type} (kvs : List (String × α)) (k : String)
    (v : α) : lookupA (upsertA kvs k v) k = some v := by
  induction kvs with
  | nil => simp [upsertA, lookupA]
  | cons kv rest ih =>
    by_cases h : kv.1 = k
    · simp [upsertA, lookupA, h]
    · simp [upsertA, lookupA, h, ih]

/-- Model of `AgentBrain._prepare_conversation_history`: stored history
plus caller-supplied history, truncated to the last
`max_history_length` entries. -/
def prepare_conversation_history (store : List (String × List ChatMsg))
    (agent_id : String) (additional_history : List ChatMsg) : List ChatMsg :=
  let full := (lookupA store agent_id).getD [] ++ additional_history
  if max_history_length < full.length then
    full.drop (full.length - max_history_length)
  else
    full

/-- C9: after any update the stored history of the updated agent never
exceeds 20 entries, and updating a history at capacity 20 with one turn
(user prompt and assistant response) drops exactly the two oldest
entries, keeping the most recent 20. -/
theorem c9_history_bound (store : List (String × List ChatMsg))
    (agent_id u a : String) :
    (lookupA (update_conversation_store store agent_id u a) agent_id).getD []
      = update_conversation_history ((lookupA store agent_id).getD []) u a ∧
    (update_conversation_history ((lookupA store agent_id).getD []) u a).length
      ≤ max_history_length ∧
    (((lookupA store agent_id).getD []).length = max_history_length →
      update_conversation_history ((lookupA store agent_id).getD []) u a =
        ((lookupA store agent_id).getD []).drop 2 ++
          [⟨"user", u⟩, ⟨"assistant", a⟩]) := by
  refine ⟨?_, ?_, ?_⟩
  · rw [update_conversation_store, lookupA_upsertA_self]
    rfl
  · generalize (lookupA store agent_id).getD [] = h0
    simp only [update_conversation_history, max_history_length]
    split
    · rw [List.length_drop]
      omega
    · next hle => omega
  · generalize (lookupA store agent_id).getD [] = h0
    intro hcap
    simp only [max_history_length] at hcap
    simp only [update_conversation_history, max_history_length]
    have hlen : (h0 ++ [(⟨"user", u⟩ : ChatMsg), ⟨"assistant", a⟩]).length
        = 22 := by
      simp [hcap]
    split
    · rw [hlen, List.drop_append_of_le_length (by omega)]
    · next hle => omega

/-- C9 witness: the bound and the at-capacity clause applied to a
concrete 20-entry history. -/
theorem c9_history_bound_witness :
    (update_conversation_history
        (List.replicate 20 (⟨"user", "x"⟩ : ChatMsg)) "u" "a").length ≤ 20 ∧
    update_conversation_history
        (List.replicate 20 (⟨"user", "x"⟩ : ChatMsg)) "u" "a" =
      (List.replicate 20 (⟨"user", "x"⟩ : ChatMsg)).drop 2 ++
        [⟨"user", "u"⟩, ⟨"assistant", "a"⟩] := by
  have h := c9_history_bound
    [("agent", List.replicate 20 (⟨"user", "x"⟩ : ChatMsg))] "agent" "u" "a"
  exact ⟨h.2.1, h.2.2 (by decide)⟩

/-! ### C7 — provider selection and fallback (agent_brain.py, lines
175-239) -/

/-- The two completion providers of `AgentBrain`. -/
inductive CompletionProvider where
  | openai : CompletionProvider
  | maclink : CompletionProvider
deriving DecidableEq

/-- The slice of `BrainRequest` read by `_select_provider_and_model`:
the explicit provider, the persona's `(preferred_provider,
preferred_model)` pair when a persona is given, and the explicit model. -/
structure SelectionRequest where
  provider : Option CompletionProvider
  persona : Option (CompletionProvider × String)
  model : Option String

/-- The provider chosen before the availability checks of
`_select_provider_and_model`: explicit request, else persona preference,
else OpenAI when its client is configured, else MacLink. -/
def initial_provider (openai_available maclink_available : Bool)
    (req : SelectionRequest) : CompletionProvider :=
  match req.provider with
  | some p => p
  | none =>
    match req.persona with
    | some pe => pe.1
    | none => if openai_available then .openai else .maclink

/-- The model chosen by `_select_provider_and_model`: explicit request,
else persona preference, else the provider's default. -/
def selected_model (req : SelectionRequest) (provider : CompletionProvider) :
    String :=
  match req.model with
  | some m => m
  | none =>
    match req.persona with
    | some pe => pe.2
    | none => if provider = .openai then "gpt-4o" else "llama2"

/-- Model of `AgentBrain._select_provider_and_model` including its two
sequential availability checks; `.error` models the raised
`BrainError`. -/
def select_provider_and_model (openai_available maclink_available : Bool)
    (req : SelectionRequest) : Except String (CompletionProvider × String) :=
  let provider := initial_provider openai_available maclink_available req
  let model := selected_model req provider
  if provider = .openai ∧ openai_available = false then
    if maclink_available then .ok (.maclink, model)
    else .error "No completion providers available"
  else if provider = .maclink ∧ maclink_available = false then
    if openai_available then .ok (.openai, model)
    else .error "No completion providers available"
  else .ok (provider, model)

/-- Which provider's client is configured. -/
def providerAvailable (openai_available maclink_available : Bool) :
    CompletionProvider → Bool
  | .openai => openai_available
  | .maclink => maclink_available

/-- The other provider. -/
def otherProvider : CompletionProvider → CompletionProvider
  | .openai => .maclink
  | .maclink => .openai

/-- Model of `AgentBrain.generate_completion`, with the per-provider
completion calls abstracted as an oracle `gen`; the result pairs the
provider that produced the completion (the `provider` field of the
returned `BrainResponse`) with its content. -/
def generate_completion (openai_available maclink_available : Bool)
    (gen : CompletionProvider → Except String String) (req : SelectionRequest) :
    Except String (CompletionProvider × String) :=
  match select_provider_and_model openai_available maclink_available req with
  | .error e => .error e
  | .ok (p, _m) =>
    match gen p with
    | .ok content => .ok (p, content)
    | .error e => .error e

/-- C7: when the provider selected by the precedence rules is
unavailable, `generate_completion` falls back to the other provider
exactly once — if that one is available (and its call succeeds) the
response is produced via it and nothing is raised; if neither provider
is available the call fails with the brain error. -/
theorem c7_provider_fallback (openai_available maclink_available : Bool)
    (gen : CompletionProvider → Except String String) (req : SelectionRequest)
    (content : String)
    (hsel : providerAvailable openai_available maclink_available
      (initial_provider openai_available maclink_available req) = false) :
    (providerAvailable openai_available maclink_available
        (otherProvider
          (initial_provider openai_available maclink_available req)) = true →
      gen (otherProvider
        (initial_provider openai_available maclink_available req)) =
          .ok content →
      generate_completion openai_available maclink_available gen req =
        .ok (otherProvider
          (initial_provider openai_available maclink_available req),
          content)) ∧
    (providerAvailable openai_available maclink_available
        (otherProvider
          (initial_provider openai_available maclink_available req)) = false →
      generate_completion openai_available maclink_available gen req =
        .error "No completion providers available") := by
  cases hp : initial_provider openai_available maclink_available req with
  | openai =>
    rw [hp] at hsel
    simp only [providerAvailable] at hsel
    constructor
    · intro hother hgen
      simp only [otherProvider, providerAvailable] at hother hgen ⊢
      subst hsel
      subst hother
      simp [generate_completion, select_provider_and_model, hp, hgen]
    · intro hother
      simp only [otherProvider, providerAvailable] at hother
      subst hsel
      subst hother
      simp [generate_completion, select_provider_and_model, hp]
  | maclink =>
    rw [hp] at hsel
    simp only [providerAvailable] at hsel
    constructor
    · intro hother hgen
      simp only [otherProvider, providerAvailable] at hother hgen ⊢
      subst hsel
      subst hother
      simp [generate_completion, select_provider_and_model, hp, hgen]
    · intro hother
      simp only [otherProvider, providerAvailable] at hother
      subst hsel
      subst hother
      simp [generate_completion, select_provider_and_model, hp]

/-- C7 witness: with OpenAI unconfigured and MacLink configured, an
explicit request for OpenAI is served by MacLink without an error, and
with neither configured the call fails with the brain error. -/
theorem c7_provider_fallback_witness :
    generate_completion false true (fun _ => .ok "hello")
        ⟨some .openai, none, none⟩ = .ok (.maclink, "hello") ∧
    generate_completion false false (fun _ => .ok "hello")
        ⟨some .openai, none, none⟩ =
      .error "No completion providers available" := by
  constructor
  · exact (c7_provider_fallback false true (fun _ => .ok "hello")
      ⟨some .openai, none, none⟩ "hello" rfl).1 rfl rfl
  · exact (c7_provider_fallback false false (fun _ => .ok "hello")
      ⟨some .openai, none, none⟩ "hello" rfl).2 rfl

/-! ### C6 — audit metadata redaction (audit.py, lines 29-100 and
349-376) -/

/-- The `sensitive_fields` list of `AuditService`. -/
def sensitive_fields : List String := ["password", "token", "secret", "api_key"]

mutual
/-- Model of `AuditService._sanitize_data`: walk the dict; a key whose
lowercase form is in the redact list has its value replaced by the
sentinel; a dict value recurses; a list value has exactly its dict
elements recursed; everything else is kept. -/
def sanitize_data : List (String × PyVal) → List (String × PyVal)
  | [] => []
  | (k, v) :: rest =>
    (if strLower k ∈ sensitive_fields then (k, PyVal.vstr "[REDACTED]")
     else (k, sanitizeValue v)) :: sanitize_data rest

/-- The value transformation `_sanitize_data` applies under a
non-sensitive key. -/
def sanitizeValue : PyVal → PyVal
  | .vdict d => .vdict (sanitize_data d)
  | .vlist xs => .vlist (sanitizeItems xs)
  | v => v

/-- The list comprehension of `_sanitize_data`: recurse into dict
elements, keep all other elements (including nested lists) unchanged. -/
def sanitizeItems : List PyVal → List PyVal
  | [] => []
  | PyVal.vdict d :: rest => PyVal.vdict (sanitize_data d) :: sanitizeItems rest
  | x :: rest => x :: sanitizeItems rest
end

/-- Whether a value is a dict or a list (the kinds `_sanitize_data`
recurses into). -/
def isContainer : PyVal → Bool
  | .vdict _ => true
  | .vlist _ => true
  | _ => false

/-- The sub-dicts that the recursion of `_sanitize_data` starting at `d`
actually visits: `d` itself, dict values under non-sensitive keys, and
dict elements of list values under non-sensitive keys. -/
inductive DictReach : List (String × PyVal) → List (String × PyVal) → Prop where
  | refl (d : List (String × PyVal)) : DictReach d d
  | viaDict (d : List (String × PyVal)) (k : String)
      (d2 e : List (String × PyVal)) :
      (k, PyVal.vdict d2) ∈ d → strLower k ∉ sensitive_fields →
      DictReach d2 e → DictReach d e
  | viaList (d : List (String × PyVal)) (k : String) (xs : List PyVal)
      (d2 e : List (String × PyVal)) :
      (k, PyVal.vlist xs) ∈ d → strLower k ∉ sensitive_fields →
      PyVal.vdict d2 ∈ xs → DictReach d2 e → DictReach d e

theorem sanitize_mem_redacted {e : List (String × PyVal)} {k : String}
    {v : PyVal} (hmem : (k, v) ∈ e) (hsens : strLower k ∈ sensitive_fields) :
    (k, PyVal.vstr "[REDACTED]") ∈ sanitize_data e := by
  induction e with
  | nil => cases hmem
  | cons kv rest ih =>
    obtain ⟨k0, v0⟩ := kv
    rcases List.mem_cons.mp hmem with heq | htail
    · obtain ⟨hk, _⟩ := Prod.mk.injEq .. ▸ heq
      subst hk
      simp only [sanitize_data, if_pos hsens]
      exact List.mem_cons_self _ _
    · simp only [sanitize_data]
      exact List.mem_cons_of_mem _ (ih htail)

theorem sanitize_mem_value {e : List (String × PyVal)} {k : String}
    {v : PyVal} (hmem : (k, v) ∈ e) (hsens : strLower k ∉ sensitive_fields) :
    (k, sanitizeValue v) ∈ sanitize_data e := by
  induction e with
  | nil => cases hmem
  | cons kv rest ih =>
    obtain ⟨k0, v0⟩ := kv
    rcases List.mem_cons.mp hmem with heq | htail
    · obtain ⟨hk, hv⟩ := Prod.mk.injEq .. ▸ heq
      subst hk; subst hv
      simp only [sanitize_data, if_neg hsens]
      exact List.mem_cons_self _ _
    · simp only [sanitize_data]
      exact List.mem_cons_of_mem _ (ih htail)

theorem sanitizeItems_mem_dict {xs : List PyVal} {d2 : List (String × PyVal)}
    (hmem : PyVal.vdict d2 ∈ xs) :
    PyVal.vdict (sanitize_data d2) ∈ sanitizeItems xs := by
  induction xs with
  | nil => cases hmem
  | cons x rest ih =>
    rcases List.mem_cons.mp hmem with heq | htail
    · subst heq
      simp only [sanitizeItems]
      exact List.mem_cons_self _ _
    · cases x with
      | vdict d3 => exact List.mem_cons_of_mem _ (ih htail)
      | vnone => exact List.mem_cons_of_mem _ (ih htail)
      | vbool b => exact List.mem_cons_of_mem _ (ih htail)
      | vint n => exact List.mem_cons_of_mem _ (ih htail)
      | vstr s => exact List.mem_cons_of_mem _ (ih htail)
      | vlist ys => exact List.mem_cons_of_mem _ (ih htail)

theorem sanitizeValue_of_not_container {v : PyVal}
    (h : isContainer v = false) : sanitizeValue v = v := by
  cases v with
  | vdict d => simp [isContainer] at h
  | vlist xs => simp [isContainer] at h
  | vnone => rfl
  | vbool b => rfl
  | vint n => rfl
  | vstr s => rfl

theorem dictReach_sanitize {d e : List (String × PyVal)}
    (h : DictReach d e) :
    DictReach (sanitize_data d) (sanitize_data e) := by
  induction h with
  | refl d => exact DictReach.refl _
  | viaDict d k d2 e hmem hsens _ ih =>
    exact DictReach.viaDict _ k (sanitize_data d2) _
      (sanitize_mem_value hmem hsens) hsens ih
  | viaList d k xs d2 e hmem hsens hel _ ih =>
    exact DictReach.viaList _ k (sanitizeItems xs) (sanitize_data d2) _
      (sanitize_mem_value hmem hsens) hsens (sanitizeItems_mem_dict hel) ih

/-- C6 counterexample: a metadata dict whose sensitive key sits in a
dict nested inside a list inside a list is stored entirely unchanged:
`_sanitize_data` does not recurse into lists nested within lists, so
`password` keeps its plaintext value instead of the sentinel. -/
theorem c6_redaction_counterexample :
    sanitize_data
        [("a", .vlist [.vlist [.vdict [("password", .vstr "p")]]])] =
      [("a", .vlist [.vlist [.vdict [("password", .vstr "p")]]])] ∧
    PyVal.vstr "p" ≠ PyVal.vstr "[REDACTED]" := by
  constructor
  · rfl
  · intro h
    exact absurd (PyVal.vstr.inj h) (by decide)

/-- C6 (amended): along every chain of the recursion that
`_sanitize_data` actually performs — descending through dict values
under non-matching keys and through dict elements lying directly inside
list values under non-matching keys — a key that case-insensitively
matches the redact list has its value replaced by the sentinel in the
stored record, the recursion structure is preserved by sanitization, and
a non-container value under a non-matching key is stored unchanged.
Dicts nested inside a list within a list are not visited. -/
theorem c6_redaction_amended (d e : List (String × PyVal)) (k : String)
    (v : PyVal) (hreach : DictReach d e) :
    (strLower k ∈ sensitive_fields → (k, v) ∈ e →
      (k, PyVal.vstr "[REDACTED]") ∈ sanitize_data e) ∧
    DictReach (sanitize_data d) (sanitize_data e) ∧
    (strLower k ∉ sensitive_fields → (k, v) ∈ e → isContainer v = false →
      (k, v) ∈ sanitize_data e) := by
  refine ⟨?_, dictReach_sanitize hreach, ?_⟩
  · intro hsens hmem
    exact sanitize_mem_redacted hmem hsens
  · intro hsens hmem hsc
    have := sanitize_mem_value hmem hsens
    rwa [sanitizeValue_of_not_container hsc] at this

/-- C6 witness: the spec's own redaction scenario
`{api_key: "sk-xyz", nested: {password: "p"}, note: "ok"}` — `api_key`
at the top level and `password` inside the reachable sub-dict `nested`
are redacted, and `note` is stored unchanged. -/
theorem c6_redaction_amended_witness :
    ("api_key", PyVal.vstr "[REDACTED]") ∈
      sanitize_data [("api_key", PyVal.vstr "sk-xyz"),
        ("nested", PyVal.vdict [("password", PyVal.vstr "p")]),
        ("note", PyVal.vstr "ok")] ∧
    ("password", PyVal.vstr "[REDACTED]") ∈
      sanitize_data [("password", PyVal.vstr "p")] ∧
    ("note", PyVal.vstr "ok") ∈
      sanitize_data [("api_key", PyVal.vstr "sk-xyz"),
        ("nested", PyVal.vdict [("password", PyVal.vstr "p")]),
        ("note", PyVal.vstr "ok")] := by
  refine ⟨?_, ?_, ?_⟩
  · exact (c6_redaction_amended
      [("api_key", PyVal.vstr "sk-xyz"),
        ("nested", PyVal.vdict [("password", PyVal.vstr "p")]),
        ("note", PyVal.vstr "ok")]
      [("api_key", PyVal.vstr "sk-xyz"),
        ("nested", PyVal.vdict [("password", PyVal.vstr "p")]),
        ("note", PyVal.vstr "ok")]
      "api_key" (PyVal.vstr "sk-xyz") (DictReach.refl _)).1
      (by decide) (List.mem_cons_self _ _)
  · exact (c6_redaction_amended
      [("api_key", PyVal.vstr "sk-xyz"),
        ("nested", PyVal.vdict [("password", PyVal.vstr "p")]),
        ("note", PyVal.vstr "ok")]
      [("password", PyVal.vstr "p")]
      "password" (PyVal.vstr "p")
      (DictReach.viaDict _ "nested" _ _
        (by simp) (by decide) (DictReach.refl _))).1
      (by decide) (List.mem_cons_self _ _)
  · exact (c6_redaction_amended
      [("api_key", PyVal.vstr "sk-xyz"),
        ("nested", PyVal.vdict [("password", PyVal.vstr "p")]),
        ("note", PyVal.vstr "ok")]
      [("api_key", PyVal.vstr "sk-xyz"),
        ("nested", PyVal.vdict [("password", PyVal.vstr "p")]),
        ("note", PyVal.vstr "ok")]
      "note" (PyVal.vstr "ok") (DictReach.refl _)).2.2
      (by decide) (by simp) rfl

/-! ### C2 — condition evaluation (workflow_orchestrator.py, lines
486-511, 1327-1351 and 1353-1367) -/

/-- The type of the CPython `eval` oracle: evaluate an expression string
against the `safe_dict` environment built from the given variables
(builtins `len`, `str`, ..., `True`, `False`, `None` plus the variable
bindings); `none` models a raised exception. -/
def PyEvalOracle : Type :=
  String → List (String × PyVal) → Option PyVal

/-- Model of `WorkflowOrchestrator._evaluate_expression`: run `eval` on
the expression; any exception is caught and yields Python `False`. -/
def evaluate_expression (pev : PyEvalOracle) (expression : String)
    (vars : List (String × PyVal)) : PyVal :=
  match pev expression vars with
  | some v => v
  | none => .vbool false

/-- Model of `WorkflowOrchestrator._evaluate_contains_condition`:
`"A contains B"` is the case-insensitive substring test of `str(eval A)`
by the literal right-hand text `B.strip()`. -/
def evaluate_contains_condition (pev : PyEvalOracle) (condition : String)
    (vars : List (String × PyVal)) : Bool :=
  if strContains condition " contains " then
    match strSplitOnce condition " contains " with
    | some (var_name, value) =>
      containsSub
        (strLower (pyStr (evaluate_expression pev (strStrip var_name)
          vars))).data
        (strLower (strStrip value)).data
    | none => false
  else false

/-- Model of `WorkflowOrchestrator._evaluate_condition_expression`:
dispatch on the first of `"=="`, `"!="`, `"contains"` occurring anywhere
in the condition, splitting at the first separator occurrence and
evaluating each side with `_evaluate_expression`; otherwise evaluate the
whole condition and coerce to `bool`.  The surrounding `try/except`
returns `False` on any exception, so the function is total and
boolean-valued. -/
def evaluate_condition_expression (pev : PyEvalOracle) (condition : String)
    (vars : List (String × PyVal)) : Bool :=
  if strContains condition "==" then
    match strSplitOnce condition "==" with
    | some (l, r) =>
      pyEq (evaluate_expression pev (strStrip l) vars)
        (evaluate_expression pev (strStrip r) vars)
    | none => false
  else if strContains condition "!=" then
    match strSplitOnce condition "!=" with
    | some (l, r) =>
      !(pyEq (evaluate_expression pev (strStrip l) vars)
        (evaluate_expression pev (strStrip r) vars))
    | none => false
  else if strContains condition "contains" then
    evaluate_contains_condition pev condition vars
  else
    pyTruthy (evaluate_expression pev condition vars)

/-- Decimal value of a digit run. -/
def digitsVal : List Char → Nat → Nat
  | [], acc => acc
  | c :: rest, acc => digitsVal rest (acc * 10 + (c.toNat - 48))

/-- Identifier start character of Python (`[A-Za-z_]`). -/
def isIdentStart (c : Char) : Bool := c.isAlpha || c = Char.ofNat 95

/-- Identifier continuation character of Python (`[A-Za-z0-9_]`). -/
def isIdentChar (c : Char) : Bool := c.isAlphanum || c = Char.ofNat 95

/-- Drop leading spaces. -/
def skipSpaces (s : List Char) : List Char := s.dropWhile (fun c => c = ' ')

/-- One atom of the executable `eval` fragment: a decimal literal, or an
identifier resolved against the variables and then against the
`True`/`False`/`None` entries of `safe_dict` (an unknown name is a
`NameError`, i.e. `none`). -/
def parseAtomFrag (scope : List (String × PyVal)) (s : List Char) :
    Option (PyVal × List Char) :=
  match skipSpaces s with
  | [] => none
  | c :: rest =>
    if c.isDigit then
      some (.vint (digitsVal ((c :: rest).takeWhile Char.isDigit) 0),
        (c :: rest).dropWhile Char.isDigit)
    else if isIdentStart c then
      let name : String := ⟨(c :: rest).takeWhile isIdentChar⟩
      let remainder := (c :: rest).dropWhile isIdentChar
      match lookupA scope name with
      | some v => some (v, remainder)
      | none =>
        if name = "True" then some (.vbool true, remainder)
        else if name = "False" then some (.vbool false, remainder)
        else if name = "None" then some (.vnone, remainder)
        else none
    else none

/-- Python `+` on the fragment's values. -/
def pyAdd : PyVal → PyVal → Option PyVal
  | .vint a, .vint b => some (.vint (a + b))
  | .vstr a, .vstr b => some (.vstr (a ++ b))
  | _, _ => none

/-- Left-associated `+` chain of the fragment. -/
def parseAddChain (scope : List (String × PyVal)) :
    Nat → PyVal → List Char → Option (PyVal × List Char)
  | 0, acc, s => some (acc, s)
  | fuel + 1, acc, s =>
    match skipSpaces s with
    | [] => some (acc, [])
    | c :: rest =>
      if c = '+' then
        match parseAtomFrag scope rest with
        | some (v, s3) =>
          match pyAdd acc v with
          | some w => parseAddChain scope fuel w s3
          | none => none
        | none => none
      else some (acc, c :: rest)

/-- Executable instantiation of the `eval` oracle, exact for the
sub-language of decimal literals, identifiers and `+` chains; outside
that sub-language it answers `none`, so it is only ever applied to
concrete inputs inside the sub-language. -/
def pyEvalFrag : PyEvalOracle := fun e scope =>
  match parseAtomFrag scope e.data with
  | some (v, rest) =>
    match parseAddChain scope rest.length v rest with
    | some (w, remainder) =>
      if skipSpaces remainder = [] then some w else none
    | none => none
  | none => none

/-- The bare-identifier form of the spec's closed expression language
(named from the spec, for the refutation only): a non-empty identifier
of letters, digits and underscores not starting with a digit. -/
def spec_closed_bare_identifier (s : String) : Bool :=
  match s.data with
  | [] => false
  | c :: rest => isIdentStart c && rest.all isIdentChar

/-- C2 counterexample: the arithmetic expression `"1+1"` is none of the
closed-language forms — it contains no `==`, no `!=`, no `contains`, and
is not a bare identifier — yet condition evaluation executes it and
returns `true` (Python `bool(2)`), not the `false` the claim states for
expressions outside the closed language. -/
theorem c2_condition_eval_counterexample :
    evaluate_condition_expression pyEvalFrag "1+1" [] = true ∧
    strContains "1+1" "==" = false ∧
    strContains "1+1" "!=" = false ∧
    strContains "1+1" "contains" = false ∧
    spec_closed_bare_identifier "1+1" = false := by
  exact ⟨rfl, rfl, rfl, rfl, rfl⟩

/-- C2 (amended): condition evaluation is total and boolean-valued (all
exceptions are caught), but the expression language is not closed: a
condition containing none of `==`, `!=`, `contains` is handed to Python
`eval` over the variable scope plus fixed builtins and its value is
coerced to `bool` — only a condition whose evaluation raises yields
`false`; a condition containing `==` compares the Python values of its
two stripped sides. -/
theorem c2_condition_eval_amended (pev : PyEvalOracle) (condition : String)
    (vars : List (String × PyVal)) :
    (strContains condition "==" = false → strContains condition "!=" = false →
      strContains condition "contains" = false →
      pev condition vars = none →
      evaluate_condition_expression pev condition vars = false) ∧
    (∀ v, strContains condition "==" = false →
      strContains condition "!=" = false →
      strContains condition "contains" = false →
      pev condition vars = some v →
      evaluate_condition_expression pev condition vars = pyTruthy v) ∧
    (∀ l r, strContains condition "==" = true →
      strSplitOnce condition "==" = some (l, r) →
      evaluate_condition_expression pev condition vars =
        pyEq (evaluate_expression pev (strStrip l) vars)
          (evaluate_expression pev (strStrip r) vars)) := by
  refine ⟨?_, ?_, ?_⟩
  · intro h1 h2 h3 hev
    simp [evaluate_condition_expression, h1, h2, h3, evaluate_expression, hev,
      pyTruthy]
  · intro v h1 h2 h3 hev
    simp [evaluate_condition_expression, h1, h2, h3, evaluate_expression, hev]
  · intro l r h1 hsplit
    simp [evaluate_condition_expression, h1, hsplit]

/-- C2 witness: the amended theorem applied at `"1+1"` (evaluated and
coerced, giving `true`), at the unknown identifier `"nosuchname"`
(evaluation raises `NameError`, giving `false`), and at the equality
condition `"1 == 2"`. -/
theorem c2_condition_eval_amended_witness :
    evaluate_condition_expression pyEvalFrag "1+1" [] =
      pyTruthy (PyVal.vint 2) ∧
    evaluate_condition_expression pyEvalFrag "nosuchname" [] = false ∧
    evaluate_condition_expression pyEvalFrag "1 == 2" [] =
      pyEq (evaluate_expression pyEvalFrag (strStrip "1 ") [])
        (evaluate_expression pyEvalFrag (strStrip " 2") []) := by
  refine ⟨?_, ?_, ?_⟩
  · exact (c2_condition_eval_amended pyEvalFrag "1+1" []).2.1
      (PyVal.vint 2) rfl rfl rfl rfl
  · exact (c2_condition_eval_amended pyEvalFrag "nosuchname" []).1
      rfl rfl rfl rfl
  · exact (c2_condition_eval_amended pyEvalFrag "1 == 2" []).2.2
      "1 " " 2" rfl rfl

/-! ### C1 — loop child scope (workflow_orchestrator.py, lines 295-331
and 378-396) -/

/-- Step statuses of the orchestrator (`StepStatus` enum). -/
inductive StepStatus where
  | pending : StepStatus
  | running : StepStatus
  | completed : StepStatus
  | failed : StepStatus
  | skipped : StepStatus
  | cancelled : StepStatus
deriving DecidableEq

/-- A `condition`-type step dict, the nested-step shape used to observe
the loop's scoping (`{id, type: condition, config: {condition},
optional output_variable}`). -/
structure CondStep where
  id : String
  condition : String
  output_variable : Option String

/-- The `config` of a `loop` step: `items` (interpolated against the
execution variables) and the nested `steps`. -/
structure LoopConfig where
  items : PyVal
  steps : List CondStep

/-- The slice of `ExecutionContext` the loop path touches: the shared
`variables`, each step's status in `step_contexts`, and each step's
stored result. -/
structure LoopExecCtx where
  vars : List (String × PyVal)
  step_statuses : List (String × StepStatus)
  step_results : List (String × PyVal)

/-- Model of `WorkflowOrchestrator._execute_step` specialised to a
`condition` step: look the step up in `step_contexts` (a missing id is
the `KeyError` the source raises), mark it running then completed, store
the handler result `{condition_result: _evaluate_expression(condition,
context.variables)}`, and write it to `variables` under
`output_variable` when set.  Note the handler reads
`context.variables` — the caller's scope. -/
def execute_cond_step (pev : PyEvalOracle) (ctx : LoopExecCtx)
    (step : CondStep) : Except String (LoopExecCtx × PyVal) :=
  match lookupA ctx.step_statuses step.id with
  | none => .error "KeyError"
  | some _ =>
    let result : PyVal :=
      .vdict [("condition_result",
        evaluate_expression pev step.condition ctx.vars)]
    .ok ({ vars :=
            match step.output_variable with
            | some ov => upsertA ctx.vars ov result
            | none => ctx.vars,
           step_statuses :=
            upsertA ctx.step_statuses step.id StepStatus.completed,
           step_results := upsertA ctx.step_results step.id result },
      result)

/-- The child scope `_handle_loop` builds for one iteration:
`loop_context = context.variables.copy()` overlaid with `loop_item` and
`loop_index`. -/
def loop_child_scope (vars : List (String × PyVal)) (item : PyVal)
    (idx : Nat) : List (String × PyVal) :=
  upsertA (upsertA vars "loop_item" item) "loop_index" (.vint idx)

/-- The inner `for loop_step in loop_steps` of `_handle_loop`: execute
each nested step via `_execute_step` against the parent context and
append each result. -/
def run_loop_steps (pev : PyEvalOracle) :
    List CondStep → LoopExecCtx → List PyVal →
      Except String (LoopExecCtx × List PyVal)
  | [], ctx, acc => .ok (ctx, acc)
  | s :: rest, ctx, acc =>
    match execute_cond_step pev ctx s with
    | .ok (ctx2, r) => run_loop_steps pev rest ctx2 (acc ++ [r])
    | .error e => .error e

/-- The outer `for item in items` of `_handle_loop`: build the child
scope (`loop_context`), which the source then never passes anywhere, and
run the nested steps against the parent context. -/
def run_loop_items (pev : PyEvalOracle) (steps : List CondStep) :
    List PyVal → LoopExecCtx → List PyVal →
      Except String (LoopExecCtx × List PyVal)
  | [], ctx, acc => .ok (ctx, acc)
  | item :: more, ctx, acc =>
    let _loop_context := loop_child_scope ctx.vars item acc.length
    match run_loop_steps pev steps ctx acc with
    | .ok (ctx2, acc2) => run_loop_items pev steps more ctx2 acc2
    | .error e => .error e

/-- Model of `WorkflowOrchestrator._handle_loop`: interpolate `items`,
iterate, and wrap the collected results as `{loop_results: [...]}`;
iterating a non-sequence is the `TypeError` the source raises. -/
def handle_loop (pev : PyEvalOracle) (ctx : LoopExecCtx)
    (cfg : LoopConfig) : Except String (LoopExecCtx × PyVal) :=
  match interpolate_variables cfg.items ctx.vars with
  | .vlist xs =>
    match run_loop_items pev cfg.steps xs ctx [] with
    | .ok (ctx2, acc) =>
      .ok (ctx2, .vdict [("loop_results", .vlist acc)])
    | .error e => .error e
  | _ => .error "TypeError"

/-- C1: the code contradicts the claim.  For the loop step with
`items = [42]` and the nested condition step `c1` on the expression
`loop_item`, the nested step is executed against the parent variables
(empty, so `loop_item` is an unbound `NameError` and the condition
result is Python `False`), even though the child scope that
`_handle_loop` builds — and then never passes to `_execute_step` — binds
`loop_item` to `42`, under which the same expression evaluates to `42`
(truthy).  So nested steps do not execute in the derived child scope. -/
theorem c1_loop_scope_code_bug :
    handle_loop pyEvalFrag
        ⟨[], [("l1", StepStatus.pending), ("c1", StepStatus.pending)], []⟩
        ⟨.vlist [.vint 42], [⟨"c1", "loop_item", none⟩]⟩ =
      .ok (⟨[],
        [("l1", StepStatus.pending), ("c1", StepStatus.completed)],
        [("c1", .vdict [("condition_result", PyVal.vbool false)])]⟩,
        .vdict [("loop_results",
          .vlist [.vdict [("condition_result", PyVal.vbool false)]])]) ∧
    evaluate_expression pyEvalFrag "loop_item"
        (loop_child_scope [] (.vint 42) 0) = .vint 42 ∧
    pyTruthy (PyVal.vbool false) = false ∧
    pyTruthy (PyVal.vint 42) = true := by
  exact ⟨rfl, rfl, rfl, rfl⟩

/-! ### C4 and C10 — websocket fanout bus (websocket_manager.py, lines
105-207) -/

/-- GUI window types (`WindowType` enum). -/
inductive WindowType where
  | agent_map : WindowType
  | code_agent : WindowType
  | chat : WindowType
  | watchtower : WindowType
  | workflow_builder : WindowType
  | data_importer : WindowType
deriving DecidableEq

/-- The slice of `WindowConnection` the registry invariant depends on
(transport handle, user/session ids and wall-clock activity stamps are
outside the embedding). -/
structure WindowConnection where
  window_type : WindowType
deriving DecidableEq

/-- The mutable state of `WebSocketManager`: `active_connections` and
the per-window buckets `window_connections` (every window key exists
from construction, so the buckets are a total function). -/
structure WSState where
  active_connections : List (String × WindowConnection)
  window_connections : WindowType → List String

/-- Python `del d[k]`: drop the binding of `k`. -/
def removeKey {α : Type} : List (String × α) → String → List (String × α)
  | [], _ => []
  | (k0, v0) :: rest, k =>
    if k0 = k then rest else (k0, v0) :: removeKey rest k

/-- Model of `WebSocketManager.disconnect`: for a registered id, remove
it from its window's bucket (the source guards membership; `erase` is
likewise a no-op when absent), close the transport, and delete it from
`active_connections`. -/
def ws_disconnect (s : WSState) (connection_id : String) : WSState :=
  match lookupA s.active_connections connection_id with
  | none => s
  | some conn =>
    { active_connections := removeKey s.active_connections connection_id,
      window_connections := fun w =>
        if w = conn.window_type then
          (s.window_connections conn.window_type).erase connection_id
        else s.window_connections w }

/-- Model of `WebSocketManager.send_message`, with the transport
abstracted by `fails` (whether `websocket.send_text` raises for the
given connection): an unknown id only logs a warning; a raising send
disconnects that connection; a successful send delivers.  The second
component records delivery. -/
def ws_send_message (fails : String → Bool) (s : WSState)
    (connection_id : String) : WSState × Bool :=
  match lookupA s.active_connections connection_id with
  | none => (s, false)
  | some _ =>
    if fails connection_id then (ws_disconnect s connection_id, false)
    else (s, true)

/-- The `for connection_id in connection_ids` loop of
`broadcast_to_window`: Python iterates the live bucket list by index, so
the bucket is re-read from the current state on every step (a
`disconnect` inside `send_message` mutates the very list being
iterated).  The fuel equals the initial bucket length, which bounds the
number of iterations since `i` only grows and the bucket never grows. -/
def ws_broadcast_loop (fails : String → Bool) (w : WindowType) :
    Nat → Nat → WSState → List String → WSState × List String
  | 0, _, s, delivered => (s, delivered)
  | fuel + 1, i, s, delivered =>
    if h : i < (s.window_connections w).length then
      let cid := (s.window_connections w).get ⟨i, h⟩
      let step := ws_send_message fails s cid
      ws_broadcast_loop fails w fuel (i + 1) step.1
        (if step.2 then delivered ++ [cid] else delivered)
    else (s, delivered)

/-- Model of `WebSocketManager.broadcast_to_window`; the second
component lists the connections that actually received the message, in
delivery order. -/
def ws_broadcast_to_window (fails : String → Bool) (s : WSState)
    (w : WindowType) : WSState × List String :=
  ws_broadcast_loop fails w (s.window_connections w).length 0 s []

/-- Model of `WebSocketManager.connect` for a fresh connection id:
register under both maps, then send the welcome message (whose failure
immediately disconnects the new connection). -/
def ws_connect (fails : String → Bool) (s : WSState) (connection_id : String)
    (w : WindowType) : WSState :=
  let s2 : WSState :=
    { active_connections := s.active_connections ++ [(connection_id, ⟨w⟩)],
      window_connections := fun w2 =>
        if w2 = w then s.window_connections w ++ [connection_id]
        else s.window_connections w2 }
  (ws_send_message fails s2 connection_id).1

/-- The operations of the fanout bus the claim quantifies over. -/
inductive WSOp where
  | connect : String → WindowType → WSOp
  | disconnect : String → WSOp
  | send : String → WSOp
  | broadcastW : WindowType → WSOp

/-- Apply one bus operation. -/
def ws_apply_op (fails : String → Bool) (s : WSState) : WSOp → WSState
  | .connect cid w => ws_connect fails s cid w
  | .disconnect cid => ws_disconnect s cid
  | .send cid => (ws_send_message fails s cid).1
  | .broadcastW w => (ws_broadcast_to_window fails s w).1

/-- Run a sequence of bus operations. -/
def ws_run_ops (fails : String → Bool) : WSState → List WSOp → WSState
  | s, [] => s
  | s, op :: ops => ws_run_ops fails (ws_apply_op fails s op) ops

/-- The registry invariant: a bucket member is a registered connection
of exactly that window; a registered connection is in its own window's
bucket; buckets and the key list are duplicate-free. -/
def WSInv (s : WSState) : Prop :=
  (∀ w cid, cid ∈ s.window_connections w →
    ∃ c, lookupA s.active_connections cid = some c ∧ c.window_type = w) ∧
  (∀ cid c, lookupA s.active_connections cid = some c →
    cid ∈ s.window_connections c.window_type) ∧
  (∀ w, (s.window_connections w).Nodup) ∧
  (s.active_connections.map Prod.fst).Nodup

/-- Well-formed traces: `connect` is only issued with a connection id
not currently registered (the source builds ids from the wall-clock
timestamp, unique process-wide per the data model). -/
inductive FreshOps (fails : String → Bool) : WSState → List WSOp → Prop where
  | nil (s : WSState) : FreshOps fails s []
  | cons_connect (s : WSState) (cid : String) (w : WindowType) (ops : List WSOp) :
      lookupA s.active_connections cid = none →
      FreshOps fails (ws_apply_op fails s (.connect cid w)) ops →
      FreshOps fails s (.connect cid w :: ops)
  | cons_disconnect (s : WSState) (cid : String) (ops : List WSOp) :
      FreshOps fails (ws_apply_op fails s (.disconnect cid)) ops →
      FreshOps fails s (.disconnect cid :: ops)
  | cons_send (s : WSState) (cid : String) (ops : List WSOp) :
      FreshOps fails (ws_apply_op fails s (.send cid)) ops →
      FreshOps fails s (.send cid :: ops)
  | cons_broadcast (s : WSState) (w : WindowType) (ops : List WSOp) :
      FreshOps fails (ws_apply_op fails s (.broadcastW w)) ops →
      FreshOps fails s (.broadcastW w :: ops)

theorem lookupA_some_mem {α : Type} {l : List (String × α)} {k : String}
    {v : α} (h : lookupA l k = some v) : (k, v) ∈ l := by
  induction l with
  | nil => simp [lookupA] at h
  | cons kv rest ih =>
    obtain ⟨k0, v0⟩ := kv
    rw [lookupA] at h
    by_cases hk : k0 = k
    · rw [if_pos hk] at h
      obtain rfl := Option.some.inj h
      subst hk
      exact List.mem_cons_self _ _
    · rw [if_neg hk] at h
      exact List.mem_cons_of_mem _ (ih h)

theorem lookupA_eq_none_iff {α : Type} {l : List (String × α)} {k : String} :
    lookupA l k = none ↔ k ∉ l.map Prod.fst := by
  induction l with
  | nil => simp [lookupA]
  | cons kv rest ih =>
    obtain ⟨k0, v0⟩ := kv
    rw [lookupA]
    by_cases hk : k0 = k
    · simp [hk]
    · simp [hk, ih, Ne.symm hk]

theorem lookupA_removeKey_self {α : Type} {l : List (String × α)}
    {k : String} (hnd : (l.map Prod.fst).Nodup) :
    lookupA (removeKey l k) k = none := by
  induction l with
  | nil => simp [removeKey, lookupA]
  | cons kv rest ih =>
    obtain ⟨k0, v0⟩ := kv
    simp only [List.map_cons, List.nodup_cons] at hnd
    rw [removeKey]
    by_cases hk : k0 = k
    · rw [if_pos hk]
      subst hk
      exact lookupA_eq_none_iff.mpr hnd.1
    · rw [if_neg hk, lookupA, if_neg hk]
      exact ih hnd.2

theorem lookupA_removeKey_ne {α : Type} (l : List (String × α))
    (k k2 : String) (hne : k2 ≠ k) :
    lookupA (removeKey l k) k2 = lookupA l k2 := by
  induction l with
  | nil => simp [removeKey]
  | cons kv rest ih =>
    obtain ⟨k0, v0⟩ := kv
    rw [removeKey]
    by_cases hk : k0 = k
    · rw [if_pos hk, lookupA, if_neg (by rw [hk]; exact fun h => hne h.symm)]
    · rw [if_neg hk, lookupA, lookupA]
      by_cases hk2 : k0 = k2
      · rw [if_pos hk2, if_pos hk2]
      · rw [if_neg hk2, if_neg hk2, ih]

theorem removeKey_keys_sublist {α : Type} (l : List (String × α))
    (k : String) :
    ((removeKey l k).map Prod.fst).Sublist (l.map Prod.fst) := by
  induction l with
  | nil => simp [removeKey]
  | cons kv rest ih =>
    obtain ⟨k0, v0⟩ := kv
    rw [removeKey]
    by_cases hk : k0 = k
    · rw [if_pos hk]
      exact (List.sublist_cons_self _ _)
    · rw [if_neg hk]
      simpa using ih.cons₂ k0

theorem ws_disconnect_inv {s : WSState} (hinv : WSInv s)
    (connection_id : String) : WSInv (ws_disconnect s connection_id) := by
  obtain ⟨h1, h2, h3, h4⟩ := hinv
  rw [ws_disconnect]
  cases hlk : lookupA s.active_connections connection_id with
  | none => exact ⟨h1, h2, h3, h4⟩
  | some conn =>
    refine ⟨?_, ?_, ?_, ?_⟩
    · intro w cid hmem
      dsimp only at hmem
      by_cases hw : w = conn.window_type
      · rw [if_pos hw] at hmem
        have hmem2 := ((h3 conn.window_type).mem_erase_iff).mp hmem
        obtain ⟨c, hc, hcw⟩ := h1 conn.window_type cid hmem2.2
        refine ⟨c, ?_, by rw [hcw, hw]⟩
        rwa [lookupA_removeKey_ne _ _ _ hmem2.1]
      · rw [if_neg hw] at hmem
        obtain ⟨c, hc, hcw⟩ := h1 w cid hmem
        have hne : cid ≠ connection_id := by
          intro heq
          subst heq
          rw [hc] at hlk
          obtain rfl := Option.some.inj hlk.symm
          exact hw hcw.symm
        refine ⟨c, ?_, hcw⟩
        rwa [lookupA_removeKey_ne _ _ _ hne]
    · intro cid c hc
      dsimp only at hc ⊢
      have hne : cid ≠ connection_id := by
        intro heq
        subst heq
        rw [lookupA_removeKey_self h4] at hc
        cases hc
      rw [lookupA_removeKey_ne _ _ _ hne] at hc
      have hmem := h2 cid c hc
      by_cases hw : c.window_type = conn.window_type
      · rw [if_pos hw, ← hw]
        exact ((h3 c.window_type).mem_erase_iff).mpr ⟨hne, hmem⟩
      · rw [if_neg hw]
        exact hmem
    · intro w
      dsimp only
      by_cases hw : w = conn.window_type
      · rw [if_pos hw]
        exact (h3 conn.window_type).erase _
      · rw [if_neg hw]
        exact h3 w
    · exact h4.sublist (removeKey_keys_sublist _ _)

theorem ws_send_message_inv (fails : String → Bool) {s : WSState}
    (hinv : WSInv s) (connection_id : String) :
    WSInv (ws_send_message fails s connection_id).1 := by
  rw [ws_send_message]
  cases hlk : lookupA s.active_connections connection_id with
  | none => exact hinv
  | some conn =>
    by_cases hf : fails connection_id
    · simpa [hf] using ws_disconnect_inv hinv connection_id
    · simpa [hf] using hinv

theorem ws_broadcast_loop_inv (fails : String → Bool) (w : WindowType) :
    ∀ (fuel i : Nat) (s : WSState) (delivered : List String),
      WSInv s → WSInv (ws_broadcast_loop fails w fuel i s delivered).1 := by
  intro fuel
  induction fuel with
  | zero => intro i s delivered hinv; exact hinv
  | succ fuel ih =>
    intro i s delivered hinv
    rw [ws_broadcast_loop]
    by_cases h : i < (s.window_connections w).length
    · rw [dif_pos h]
      exact ih _ _ _ (ws_send_message_inv fails hinv _)
    · rw [dif_neg h]
      exact hinv

theorem ws_connect_inv (fails : String → Bool) {s : WSState}
    (hinv : WSInv s) (connection_id : String) (w : WindowType)
    (hfresh : lookupA s.active_connections connection_id = none) :
    WSInv (ws_connect fails s connection_id w) := by
  obtain ⟨h1, h2, h3, h4⟩ := hinv
  have hkeys : connection_id ∉ s.active_connections.map Prod.fst :=
    lookupA_eq_none_iff.mp hfresh
  have hlkapp : ∀ cid, lookupA
      (s.active_connections ++ [(connection_id, (⟨w⟩ : WindowConnection))])
      cid =
        (match lookupA s.active_connections cid with
         | some v => some v
         | none =>
           lookupA [(connection_id, (⟨w⟩ : WindowConnection))] cid) := by
    intro cid
    induction s.active_connections with
    | nil => simp [lookupA]
    | cons kv rest ih =>
      obtain ⟨k0, v0⟩ := kv
      rw [List.cons_append, lookupA, lookupA]
      by_cases hk : k0 = cid
      · simp [hk]
      · simpa [hk] using ih
  have hinv2 : WSInv
      { active_connections :=
          s.active_connections ++ [(connection_id, ⟨w⟩)],
        window_connections := fun w2 =>
          if w2 = w then s.window_connections w ++ [connection_id]
          else s.window_connections w2 } := by
    refine ⟨?_, ?_, ?_, ?_⟩
    · intro w2 cid hmem
      dsimp only at hmem ⊢
      rw [hlkapp]
      by_cases hw : w2 = w
      · rw [if_pos hw] at hmem
        rcases List.mem_append.mp hmem with hold | hnew
        · obtain ⟨c, hc, hcw⟩ := h1 w cid hold
          exact ⟨c, by simp [hc], by rw [hcw, hw]⟩
        · have : cid = connection_id := by simpa using hnew
          subst this
          refine ⟨⟨w⟩, ?_, by rw [hw]⟩
          simp [hfresh, lookupA]
      · rw [if_neg hw] at hmem
        obtain ⟨c, hc, hcw⟩ := h1 w2 cid hmem
        exact ⟨c, by simp [hc], hcw⟩
    · intro cid c hc
      dsimp only at hc ⊢
      rw [hlkapp] at hc
      cases hold : lookupA s.active_connections cid with
      | some c0 =>
        rw [hold] at hc
        have hcc : c0 = c := Option.some.inj hc
        subst hcc
        have hmem := h2 cid c0 hold
        by_cases hw : c0.window_type = w
        · rw [if_pos hw]
          exact List.mem_append_left _ (hw ▸ hmem)
        · rw [if_neg hw]
          exact hmem
      | none =>
        rw [hold] at hc
        rw [lookupA] at hc
        by_cases hcd : connection_id = cid
        · rw [if_pos hcd] at hc
          obtain rfl := Option.some.inj hc
          subst hcd
          rw [if_pos rfl]
          exact List.mem_append_right _ (by simp)
        · rw [if_neg hcd] at hc
          simp [lookupA] at hc
    · intro w2
      dsimp only
      by_cases hw : w2 = w
      · rw [if_pos hw]
        rw [List.nodup_append]
        refine ⟨h3 w, by simp, ?_⟩
        intro cid hmem hmem2
        have : cid = connection_id := by simpa using hmem2
        subst this
        obtain ⟨c, hc, _⟩ := h1 w cid hmem
        rw [hc] at hfresh
        cases hfresh
      · rw [if_neg hw]
        exact h3 w2
    · dsimp only
      rw [List.map_append, List.nodup_append]
      exact ⟨h4, by simp, by simpa using hkeys⟩
  rw [ws_connect]
  exact ws_send_message_inv fails hinv2 connection_id

theorem ws_apply_op_inv (fails : String → Bool) {s : WSState}
    (hinv : WSInv s) (op : WSOp)
    (hfresh : ∀ cid w, op = .connect cid w →
      lookupA s.active_connections cid = none) :
    WSInv (ws_apply_op fails s op) := by
  cases op with
  | connect cid w => exact ws_connect_inv fails hinv cid w (hfresh cid w rfl)
  | disconnect cid => exact ws_disconnect_inv hinv cid
  | send cid => exact ws_send_message_inv fails hinv cid
  | broadcastW w => exact ws_broadcast_loop_inv fails w _ _ _ _ hinv

theorem ws_run_ops_inv (fails : String → Bool) :
    ∀ (ops : List WSOp) (s : WSState), WSInv s → FreshOps fails s ops →
      WSInv (ws_run_ops fails s ops) := by
  intro ops
  induction ops with
  | nil => intro s hinv _; exact hinv
  | cons op rest ih =>
    intro s hinv hfr
    rw [ws_run_ops]
    cases hfr with
    | cons_connect _ cid w _ hf hrest =>
      refine ih _ (ws_apply_op_inv fails hinv _ ?_) hrest
      intro cid2 w2 heq
      cases heq
      exact hf
    | cons_disconnect _ cid _ hrest =>
      exact ih _ (ws_apply_op_inv fails hinv _ (by intro _ _ h; cases h)) hrest
    | cons_send _ cid _ hrest =>
      exact ih _ (ws_apply_op_inv fails hinv _ (by intro _ _ h; cases h)) hrest
    | cons_broadcast _ w _ hrest =>
      exact ih _ (ws_apply_op_inv fails hinv _ (by intro _ _ h; cases h)) hrest

/-- C10: after any well-formed sequence of connect, disconnect, send
and broadcast operations from an invariant-satisfying state, a
connection id is a key of `active_connections` iff it appears in the
bucket of its own window type; it appears in no other window's bucket;
and sending to an id absent from `active_connections` changes no state
and delivers nothing. -/
theorem c10_registry_invariant (fails : String → Bool) (s : WSState)
    (ops : List WSOp) (hinv : WSInv s) (hfresh : FreshOps fails s ops) :
    WSInv (ws_run_ops fails s ops) ∧
    (∀ cid w w2, cid ∈ (ws_run_ops fails s ops).window_connections w →
      cid ∈ (ws_run_ops fails s ops).window_connections w2 → w = w2) ∧
    (∀ cid,
      lookupA (ws_run_ops fails s ops).active_connections cid = none →
      ws_send_message fails (ws_run_ops fails s ops) cid =
        (ws_run_ops fails s ops, false)) := by
  have hfin := ws_run_ops_inv fails ops s hinv hfresh
  refine ⟨hfin, ?_, ?_⟩
  · intro cid w w2 hm1 hm2
    obtain ⟨c1, hc1, hw1⟩ := hfin.1 w cid hm1
    obtain ⟨c2, hc2, hw2⟩ := hfin.1 w2 cid hm2
    rw [hc1] at hc2
    obtain rfl := Option.some.inj hc2
    rw [← hw1, hw2]
  · intro cid hnone
    rw [ws_send_message, hnone]

/-- C10 witness: the invariant run on a concrete trace — two
connections joining the chat window, a broadcast in which the first
send fails, a disconnect, and a send to an unknown id. -/
theorem c10_registry_invariant_witness :
    WSInv (ws_run_ops (fun cid => cid = "c1") ⟨[], fun _ => []⟩
      [.connect "c1" .chat, .connect "c2" .chat, .broadcastW .chat,
        .disconnect "c2", .send "ghost"]) := by
  refine (c10_registry_invariant (fun cid => cid = "c1")
    ⟨[], fun _ => []⟩
    [.connect "c1" .chat, .connect "c2" .chat, .broadcastW .chat,
      .disconnect "c2", .send "ghost"] ⟨?_, ?_, ?_, ?_⟩ ?_).1
  · intro w cid hmem
    cases hmem
  · intro cid c hc
    simp [lookupA] at hc
  · intro w
    exact List.nodup_nil
  · exact List.nodup_nil
  · refine FreshOps.cons_connect _ _ _ _ rfl ?_
    refine FreshOps.cons_connect _ _ _ _ (by rfl) ?_
    refine FreshOps.cons_broadcast _ _ _ ?_
    refine FreshOps.cons_disconnect _ _ _ ?_
    refine FreshOps.cons_send _ _ _ ?_
    exact FreshOps.nil _

/-- C4: the code contradicts the claim.  In a chat window holding the
two registered connections `c1` and `c2`, with `c1`'s transport raising
on send, `broadcast_to_window` delivers the message to nobody: the
failing send disconnects `c1`, which removes it from the very list the
loop is iterating by index, so the loop skips `c2` — yet `c2` is still
a registered chat connection afterwards.  With no failure both receive
the message. -/
theorem c4_broadcast_skips_next_code_bug :
    (ws_broadcast_to_window (fun cid => cid = "c1")
        ⟨[("c1", ⟨.chat⟩), ("c2", ⟨.chat⟩)],
          fun w => if w = .chat then ["c1", "c2"] else []⟩ .chat).2 = [] ∧
    lookupA (ws_broadcast_to_window (fun cid => cid = "c1")
        ⟨[("c1", ⟨.chat⟩), ("c2", ⟨.chat⟩)],
          fun w => if w = .chat then ["c1", "c2"] else []⟩ .chat).1.1
      "c2" = some ⟨.chat⟩ ∧
    "c2" ∈ (ws_broadcast_to_window (fun cid => cid = "c1")
        ⟨[("c1", ⟨.chat⟩), ("c2", ⟨.chat⟩)],
          fun w => if w = .chat then ["c1", "c2"] else []⟩ .chat).1.2 .chat ∧
    (ws_broadcast_to_window (fun _ => false)
        ⟨[("c1", ⟨.chat⟩), ("c2", ⟨.chat⟩)],
          fun w => if w = .chat then ["c1", "c2"] else []⟩ .chat).2 =
      ["c1", "c2"] := by
  refine ⟨rfl, rfl, ?_, rfl⟩
  decide

/-! ### C3 — retry bound and completed-state stickiness
(workflow_orchestrator.py, lines 40-53, 229-331 and 531-568) -/

/-- Execution statuses (`ExecutionStatus` enum). -/
inductive ExecutionStatus where
  | pending : ExecutionStatus
  | running : ExecutionStatus
  | completed : ExecutionStatus
  | failed : ExecutionStatus
  | cancelled : ExecutionStatus
  | paused : ExecutionStatus
deriving DecidableEq

/-- The slice of a `StepContext` dataclass the claim is about: status,
error, `retry_count`, and the `max_retries` field (default 3, never
read by the failure handler). -/
structure StepCtx where
  status : StepStatus
  error : Option String
  retry_count : Nat
  max_retries : Nat
deriving DecidableEq

/-- The `StepContext` as `execute_workflow` seeds it. -/
def pendingCtx : StepCtx := ⟨.pending, none, 0, 3⟩

/-- The slice of a step dict the sequential driver reads: id, optional
gating condition, the `on_failure` config (`action`, `max_retries`) and
the optional `output_variable`. -/
structure SeqStep where
  id : String
  condition : Option String
  on_failure_action : Option String
  on_failure_max_retries : Option Nat
  output_variable : Option String

/-- The per-step retry budget `_handle_step_failure` enforces:
`failure_config.get('max_retries', 3)`. -/
def eff_max_retries (step : SeqStep) : Nat :=
  step.on_failure_max_retries.getD 3

/-- The slice of `ExecutionContext` the sequential driver mutates. -/
structure SeqExecState where
  vars : List (String × PyVal)
  step_contexts : List (String × StepCtx)
  completed_steps : List String
  failed_steps : List String
  status : ExecutionStatus
  current_step : Option String

/-- The handler-outcome oracle abstracting `handler(context, step)` in
`_execute_step`: for a step id and the `retry_count` at invocation it
yields the handler's result, or `none` for a raised exception.  (Under
the data model's step-id uniqueness the nested `_execute_step` calls of
the `loop`/`parallel` handlers hit a `KeyError` without mutating any
step context, so a failing oracle models them exactly.) -/
def HandlerOracle : Type := String → Nat → Option PyVal

/-- Model of `WorkflowOrchestrator._execute_step`: look up the step
context (`KeyError` when absent, before any mutation), mark it running,
run the handler, then either mark completed and write `output_variable`,
or mark failed and re-raise.  The second component is the raised flag. -/
def seq_execute_step (outcome : HandlerOracle) (st : SeqExecState)
    (step : SeqStep) : SeqExecState × Bool :=
  match lookupA st.step_contexts step.id with
  | none => (st, true)
  | some sc =>
    match outcome step.id sc.retry_count with
    | some result =>
      ({ st with
          step_contexts := upsertA st.step_contexts step.id
            { sc with status := .completed },
          vars :=
            match step.output_variable with
            | some ov => upsertA st.vars ov result
            | none => st.vars }, false)
    | none =>
      ({ st with
          step_contexts := upsertA st.step_contexts step.id
            { sc with status := .failed, error := some "step error" } },
        true)

/-- Model of `WorkflowOrchestrator._handle_step_failure`: on
`action = retry` and `retry_count < max_retries`, increment the count,
reset the step to pending and re-invoke `_execute_step` (whose raise
propagates, flag `true`); on exhausted retries or the default action the
execution is marked failed; `continue` does nothing. -/
def seq_handle_step_failure (outcome : HandlerOracle) (st : SeqExecState)
    (step : SeqStep) : SeqExecState × Bool :=
  let action := step.on_failure_action.getD "fail"
  if action = "retry" then
    match lookupA st.step_contexts step.id with
    | none => (st, true)
    | some sc =>
      if sc.retry_count < eff_max_retries step then
        seq_execute_step outcome
          { st with
              step_contexts := upsertA st.step_contexts step.id
                { sc with retry_count := sc.retry_count + 1,
                          status := .pending } } step
      else ({ st with status := .failed }, false)
  else if action = "continue" then (st, false)
  else ({ st with status := .failed }, false)

/-- Model of `WorkflowOrchestrator._handle_step_error`: mark the step
failed and record it; `none` is the `KeyError` on an unknown id (which
would propagate to the async driver). -/
def seq_handle_step_error (st : SeqExecState) (step_id : String) :
    Option SeqExecState :=
  match lookupA st.step_contexts step_id with
  | none => none
  | some sc =>
    some { st with
        step_contexts := upsertA st.step_contexts step_id
          { sc with status := .failed, error := some "step error" },
        failed_steps := st.failed_steps ++ [step_id] }

/-- Model of `WorkflowOrchestrator._mark_step_skipped`. -/
def seq_mark_step_skipped (st : SeqExecState) (step_id : String) :
    Option SeqExecState :=
  match lookupA st.step_contexts step_id with
  | none => none
  | some sc =>
    some { st with
        step_contexts := upsertA st.step_contexts step_id
          { sc with status := .skipped } }

/-- Model of `WorkflowOrchestrator._should_skip_step`: a step with a
`condition` key is skipped when the evaluated condition is falsy. -/
def seq_should_skip (pev : PyEvalOracle) (st : SeqExecState)
    (step : SeqStep) : Bool :=
  match step.condition with
  | some cond => !(pyTruthy (evaluate_expression pev cond st.vars))
  | none => false

/-- One iteration of the `for step in steps` loop of
`_execute_sequential_steps`: set `current_step`, skip when gated,
otherwise execute; on normal return append to `completed_steps` and run
the (unreachable, but modelled) failed-status check; any exception goes
to `_handle_step_error`, and a `KeyError` escaping even that marks the
execution failed in `_execute_workflow_async`. -/
def seq_run_step (pev : PyEvalOracle) (outcome : HandlerOracle)
    (st0 : SeqExecState) (step : SeqStep) : SeqExecState :=
  let st := { st0 with current_step := some step.id }
  if seq_should_skip pev st step then
    match seq_mark_step_skipped st step.id with
    | some st2 => st2
    | none => { st with status := .failed }
  else
    match seq_execute_step outcome st step with
    | (st2, false) =>
      let st3 := { st2 with completed_steps := st2.completed_steps ++ [step.id] }
      if (lookupA st3.step_contexts step.id).map StepCtx.status =
          some StepStatus.failed then
        match seq_handle_step_failure outcome st3 step with
        | (st4, false) => st4
        | (st4, true) =>
          match seq_handle_step_error st4 step.id with
          | some st5 => st5
          | none => { st4 with status := .failed }
      else st3
    | (st2, true) =>
      match seq_handle_step_error st2 step.id with
      | some st3 => st3
      | none => { st2 with status := .failed }

/-- The sequential driver `_execute_sequential_steps` as a trace: the
state after each loop iteration, stopping (`break`) once the execution
has failed or been cancelled. -/
def seq_run_steps (pev : PyEvalOracle) (outcome : HandlerOracle) :
    SeqExecState → List SeqStep → List SeqExecState
  | _, [] => []
  | st, step :: rest =>
    if st.status = .failed ∨ st.status = .cancelled then []
    else
      let st2 := seq_run_step pev outcome st step
      st2 :: seq_run_steps pev outcome st2 rest

theorem lookupA_upsertA_ne {α : Type} (l : List (String × α)) (k k2 : String)
    (v : α) (hne : k2 ≠ k) : lookupA (upsertA l k v) k2 = lookupA l k2 := by
  induction l with
  | nil =>
    show lookupA [(k, v)] k2 = lookupA ([] : List (String × α)) k2
    simp only [lookupA]
    exact if_neg (fun h => hne h.symm)
  | cons kv rest ih =>
    obtain ⟨k0, v0⟩ := kv
    rw [upsertA]
    by_cases hk : k0 = k
    · subst hk
      rw [if_pos rfl, lookupA, lookupA, if_neg (fun h => hne h.symm),
        if_neg (fun h => hne h.symm)]
    · rw [if_neg hk, lookupA, lookupA]
      by_cases hk2 : k0 = k2
      · rw [if_pos hk2, if_pos hk2]
      · rw [if_neg hk2, if_neg hk2, ih]

theorem seq_execute_step_frame (outcome : HandlerOracle) (st : SeqExecState)
    (step : SeqStep) (sid : String) (hne : sid ≠ step.id) :
    lookupA (seq_execute_step outcome st step).1.step_contexts sid =
      lookupA st.step_contexts sid := by
  rw [seq_execute_step]
  split
  · rfl
  · split
    · exact lookupA_upsertA_ne _ _ _ _ hne
    · exact lookupA_upsertA_ne _ _ _ _ hne

theorem seq_handle_step_failure_frame (outcome : HandlerOracle)
    (st : SeqExecState) (step : SeqStep) (sid : String)
    (hne : sid ≠ step.id) :
    lookupA (seq_handle_step_failure outcome st step).1.step_contexts sid =
      lookupA st.step_contexts sid := by
  rw [seq_handle_step_failure]
  split
  · split
    · rfl
    · split
      · rw [seq_execute_step_frame _ _ _ _ hne]
        exact lookupA_upsertA_ne _ _ _ _ hne
      · rfl
  · split
    · rfl
    · rfl

theorem seq_handle_step_error_frame {st st2 : SeqExecState}
    {step_id : String} (h : seq_handle_step_error st step_id = some st2)
    (sid : String) (hne : sid ≠ step_id) :
    lookupA st2.step_contexts sid = lookupA st.step_contexts sid := by
  rw [seq_handle_step_error] at h
  cases hlk : lookupA st.step_contexts step_id with
  | none => rw [hlk] at h; cases h
  | some sc =>
    rw [hlk] at h
    obtain rfl := Option.some.inj h
    exact lookupA_upsertA_ne _ _ _ _ hne

theorem seq_mark_step_skipped_frame {st st2 : SeqExecState}
    {step_id : String} (h : seq_mark_step_skipped st step_id = some st2)
    (sid : String) (hne : sid ≠ step_id) :
    lookupA st2.step_contexts sid = lookupA st.step_contexts sid := by
  rw [seq_mark_step_skipped] at h
  cases hlk : lookupA st.step_contexts step_id with
  | none => rw [hlk] at h; cases h
  | some sc =>
    rw [hlk] at h
    obtain rfl := Option.some.inj h
    exact lookupA_upsertA_ne _ _ _ _ hne

theorem seq_run_step_frame (pev : PyEvalOracle) (outcome : HandlerOracle)
    (st0 : SeqExecState) (step : SeqStep) (sid : String)
    (hne : sid ≠ step.id) :
    lookupA (seq_run_step pev outcome st0 step).step_contexts sid =
      lookupA st0.step_contexts sid := by
  rw [seq_run_step]
  split
  · split
    · next st2 hmk => exact seq_mark_step_skipped_frame hmk sid hne
    · rfl
  · split
    · next st2 hex =>
      have hfr2 : lookupA st2.step_contexts sid =
          lookupA st0.step_contexts sid := by
        have := seq_execute_step_frame outcome
          { st0 with current_step := some step.id } step sid hne
        rwa [hex] at this
      dsimp only
      split
      · split
        · next st4 hfl =>
          have hfr4 : lookupA st4.step_contexts sid =
              lookupA st2.step_contexts sid := by
            have := seq_handle_step_failure_frame outcome
              { st2 with completed_steps :=
                st2.completed_steps ++ [step.id] } step sid hne
            rwa [hfl] at this
          rw [hfr4, hfr2]
        · next st4 hfl =>
          have hfr4 : lookupA st4.step_contexts sid =
              lookupA st2.step_contexts sid := by
            have := seq_handle_step_failure_frame outcome
              { st2 with completed_steps :=
                st2.completed_steps ++ [step.id] } step sid hne
            rwa [hfl] at this
          split
          · next st5 herr =>
            rw [seq_handle_step_error_frame herr sid hne, hfr4, hfr2]
          · rw [hfr4, hfr2]
      · exact hfr2
    · next st2 hex =>
      have hfr2 : lookupA st2.step_contexts sid =
          lookupA st0.step_contexts sid := by
        have := seq_execute_step_frame outcome
          { st0 with current_step := some step.id } step sid hne
        rwa [hex] at this
      split
      · next st3 herr =>
        rw [seq_handle_step_error_frame herr sid hne, hfr2]
      · exact hfr2

theorem seq_execute_step_own_count (outcome : HandlerOracle)
    (st : SeqExecState) (step : SeqStep) :
    ∀ sc, lookupA (seq_execute_step outcome st step).1.step_contexts step.id =
        some sc →
      ∃ sc0, lookupA st.step_contexts step.id = some sc0 ∧
        sc.retry_count = sc0.retry_count := by
  intro sc hsc
  rw [seq_execute_step] at hsc
  split at hsc
  · next hnone => exact ⟨sc, hsc, rfl⟩
  · next sc1 heq =>
    split at hsc
    · rw [lookupA_upsertA_self] at hsc
      obtain rfl := (Option.some.inj hsc).symm
      exact ⟨sc1, heq, rfl⟩
    · rw [lookupA_upsertA_self] at hsc
      obtain rfl := (Option.some.inj hsc).symm
      exact ⟨sc1, heq, rfl⟩

/-- The retry guard of `_handle_step_failure`: the step's `retry_count`
is either untouched or, when incremented by a retry, stays within the
policy's `max_retries`. -/
theorem seq_handle_step_failure_guard (outcome : HandlerOracle)
    (st : SeqExecState) (step : SeqStep) :
    ∀ sc, lookupA (seq_handle_step_failure outcome st step).1.step_contexts
        step.id = some sc →
      ∀ sc0, lookupA st.step_contexts step.id = some sc0 →
        sc.retry_count = sc0.retry_count ∨
          sc.retry_count ≤ eff_max_retries step := by
  intro sc hsc sc0 h0
  rw [seq_handle_step_failure] at hsc
  split at hsc
  · split at hsc
    · next hnone => rw [h0] at hnone; cases hnone
    · next sc1 heq =>
      rw [h0] at heq
      obtain rfl := Option.some.inj heq
      split at hsc
      · next hlt =>
        obtain ⟨sc2, h2, hcnt⟩ := seq_execute_step_own_count outcome _ step sc hsc
        rw [lookupA_upsertA_self] at h2
        obtain rfl := (Option.some.inj h2).symm
        right
        rw [hcnt]
        exact hlt
      · dsimp only at hsc
        rw [h0] at hsc
        obtain rfl := Option.some.inj hsc
        exact Or.inl rfl
  · split at hsc
    · rw [h0] at hsc
      obtain rfl := Option.some.inj hsc
      exact Or.inl rfl
    · rw [h0] at hsc
      obtain rfl := Option.some.inj hsc
      exact Or.inl rfl

theorem seq_mark_step_skipped_own {st st2 : SeqExecState} {step_id : String}
    {sc0 : StepCtx} (h : lookupA st.step_contexts step_id = some sc0)
    (hmk : seq_mark_step_skipped st step_id = some st2) :
    lookupA st2.step_contexts step_id =
      some ⟨.skipped, sc0.error, sc0.retry_count, sc0.max_retries⟩ := by
  rw [seq_mark_step_skipped, h] at hmk
  obtain rfl := Option.some.inj hmk
  exact lookupA_upsertA_self _ _ _

theorem seq_handle_step_error_own {st st2 : SeqExecState} {step_id : String}
    {sc0 : StepCtx} (h : lookupA st.step_contexts step_id = some sc0)
    (herr : seq_handle_step_error st step_id = some st2) :
    lookupA st2.step_contexts step_id =
      some ⟨.failed, some "step error", sc0.retry_count, sc0.max_retries⟩ := by
  rw [seq_handle_step_error, h] at herr
  obtain rfl := Option.some.inj herr
  exact lookupA_upsertA_self _ _ _

theorem seq_execute_step_own_flag (outcome : HandlerOracle)
    (st : SeqExecState) (step : SeqStep) {sc0 : StepCtx}
    (h : lookupA st.step_contexts step.id = some sc0) :
    ((seq_execute_step outcome st step).2 = false →
      lookupA (seq_execute_step outcome st step).1.step_contexts step.id =
        some ⟨.completed, sc0.error, sc0.retry_count, sc0.max_retries⟩) ∧
    ((seq_execute_step outcome st step).2 = true →
      lookupA (seq_execute_step outcome st step).1.step_contexts step.id =
        some ⟨.failed, some "step error", sc0.retry_count,
          sc0.max_retries⟩) := by
  rw [seq_execute_step]
  split
  · next hnone => rw [h] at hnone; cases hnone
  · next sc1 heq =>
    rw [h] at heq
    obtain rfl := Option.some.inj heq
    split
    · exact ⟨fun _ => lookupA_upsertA_self _ _ _,
        fun hff => Bool.noConfusion hff⟩
    · exact ⟨fun hff => Bool.noConfusion hff,
        fun _ => lookupA_upsertA_self _ _ _⟩

theorem seq_run_step_retry_bound (pev : PyEvalOracle)
    (outcome : HandlerOracle) (st0 : SeqExecState) (step : SeqStep)
    (hpre : lookupA st0.step_contexts step.id = some pendingCtx) :
    ∀ sc, lookupA (seq_run_step pev outcome st0 step).step_contexts step.id =
      some sc → sc.retry_count ≤ eff_max_retries step := by
  intro sc hsc
  have hpre1 : lookupA
      ({ st0 with current_step := some step.id } :
        SeqExecState).step_contexts step.id = some pendingCtx := hpre
  rw [seq_run_step] at hsc
  split at hsc
  · split at hsc
    · next st2 hmk =>
      rw [seq_mark_step_skipped_own hpre1 hmk] at hsc
      obtain rfl := (Option.some.inj hsc).symm
      exact Nat.zero_le _
    · rw [hpre1] at hsc
      obtain rfl := (Option.some.inj hsc).symm
      exact Nat.zero_le _
  · split at hsc
    · next st2 hex =>
      have hof := seq_execute_step_own_flag outcome
        { st0 with current_step := some step.id } step hpre1
      rw [hex] at hof
      have hentry := hof.1 rfl
      dsimp only at hsc
      split at hsc
      · next hfailstat =>
        rw [show ({ st2 with completed_steps :=
            st2.completed_steps ++ [step.id] } :
              SeqExecState).step_contexts = st2.step_contexts from rfl,
          hentry] at hfailstat
        simp at hfailstat
      · rw [show ({ st2 with completed_steps :=
            st2.completed_steps ++ [step.id] } :
              SeqExecState).step_contexts = st2.step_contexts from rfl,
          hentry] at hsc
        obtain rfl := (Option.some.inj hsc).symm
        exact Nat.zero_le _
    · next st2 hex =>
      have hof := seq_execute_step_own_flag outcome
        { st0 with current_step := some step.id } step hpre1
      rw [hex] at hof
      have hentry := hof.2 rfl
      split at hsc
      · next st3 herr =>
        rw [seq_handle_step_error_own hentry herr] at hsc
        obtain rfl := (Option.some.inj hsc).symm
        exact Nat.zero_le _
      · rw [show ({ st2 with status := ExecutionStatus.failed } :
            SeqExecState).step_contexts = st2.step_contexts from rfl,
          hentry] at hsc
        obtain rfl := (Option.some.inj hsc).symm
        exact Nat.zero_le _

theorem seq_run_step_keep_completed (pev : PyEvalOracle)
    (outcome : HandlerOracle) (st0 : SeqExecState) (step : SeqStep)
    (hpend : ∀ sc0, lookupA st0.step_contexts step.id = some sc0 →
      sc0.status = .pending)
    (sid : String) (sc : StepCtx)
    (hl : lookupA st0.step_contexts sid = some sc)
    (hc : sc.status = .completed) :
    lookupA (seq_run_step pev outcome st0 step).step_contexts sid =
      some sc := by
  by_cases hne : sid = step.id
  · subst hne
    have := hpend sc hl
    rw [this] at hc
    cases hc
  · rw [seq_run_step_frame pev outcome st0 step sid hne]
    exact hl

theorem seq_run_steps_frame (pev : PyEvalOracle) (outcome : HandlerOracle) :
    ∀ (steps : List SeqStep) (st : SeqExecState) (sid : String),
      sid ∉ steps.map SeqStep.id →
      ∀ st2 ∈ seq_run_steps pev outcome st steps,
        lookupA st2.step_contexts sid = lookupA st.step_contexts sid := by
  intro steps
  induction steps with
  | nil => intro st sid _ st2 hst2; cases hst2
  | cons step rest ih =>
    intro st sid hnm st2 hst2
    rw [seq_run_steps] at hst2
    simp only [List.map_cons, List.mem_cons, not_or] at hnm
    split at hst2
    · cases hst2
    · rcases List.mem_cons.mp hst2 with rfl | htail
      · exact seq_run_step_frame pev outcome st step sid hnm.1
      · rw [ih (seq_run_step pev outcome st step) sid hnm.2 st2 htail,
          seq_run_step_frame pev outcome st step sid hnm.1]

/-- Entries frozen between two consecutive trace states once completed. -/
def frozen_pair (a b : SeqExecState) : Prop :=
  ∀ sid sc, lookupA a.step_contexts sid = some sc →
    sc.status = .completed → lookupA b.step_contexts sid = some sc

/-- Every consecutive pair of the trace freezes completed entries. -/
def FrozenTrace : List SeqExecState → Prop
  | [] => True
  | [_] => True
  | a :: b :: l => frozen_pair a b ∧ FrozenTrace (b :: l)

theorem frozenTrace_head_to :
    ∀ (l : List SeqExecState) (a : SeqExecState), FrozenTrace (a :: l) →
      ∀ (j : Nat) (hj : j < (a :: l).length) (sid : String) (sc : StepCtx),
        lookupA a.step_contexts sid = some sc → sc.status = .completed →
        lookupA ((a :: l).get ⟨j, hj⟩).step_contexts sid = some sc := by
  intro l
  induction l with
  | nil =>
    intro a _ j hj sid sc hl hc
    cases j with
    | zero => exact hl
    | succ j2 => exact absurd hj (by simp)
  | cons b l2 ih =>
    intro a hf j hj sid sc hl hc
    cases j with
    | zero => exact hl
    | succ j2 =>
      have hb : lookupA b.step_contexts sid = some sc := hf.1 sid sc hl hc
      exact ih b hf.2 j2 (by simpa using hj) sid sc hb hc

theorem frozenTrace_get :
    ∀ (l : List SeqExecState), FrozenTrace l →
      ∀ (i j : Nat) (hi : i < l.length) (hj : j < l.length), i ≤ j →
      ∀ (sid : String) (sc : StepCtx),
        lookupA (l.get ⟨i, hi⟩).step_contexts sid = some sc →
        sc.status = .completed →
        lookupA (l.get ⟨j, hj⟩).step_contexts sid = some sc := by
  intro l
  induction l with
  | nil => intro _ i j hi _ _ _ _ _ _; cases hi
  | cons a l2 ih =>
    intro hf i j hi hj hij sid sc hl hc
    cases i with
    | zero => exact frozenTrace_head_to l2 a hf j hj sid sc hl hc
    | succ i2 =>
      have hf2 : FrozenTrace l2 := by
        cases l2 with
        | nil => trivial
        | cons b l3 => exact hf.2
      cases j with
      | zero => omega
      | succ j2 =>
        exact ih hf2 i2 j2 (by simpa using hi) (by simpa using hj)
          (by omega) sid sc hl hc

theorem seq_run_steps_inv (pev : PyEvalOracle) (outcome : HandlerOracle) :
    ∀ (steps : List SeqStep) (st0 : SeqExecState),
      (steps.map SeqStep.id).Nodup →
      (∀ step ∈ steps,
        lookupA st0.step_contexts step.id = some pendingCtx) →
      (∀ st ∈ seq_run_steps pev outcome st0 steps, ∀ step ∈ steps,
        ∀ sc, lookupA st.step_contexts step.id = some sc →
          sc.retry_count ≤ eff_max_retries step) ∧
      FrozenTrace (st0 :: seq_run_steps pev outcome st0 steps) := by
  intro steps
  induction steps with
  | nil =>
    intro st0 _ _
    exact ⟨fun st hst => absurd hst (List.not_mem_nil st), trivial⟩
  | cons step rest ih =>
    intro st0 hnd hpend
    rw [seq_run_steps]
    split
    · exact ⟨fun st hst => absurd hst (List.not_mem_nil st), trivial⟩
    · simp only [List.map_cons, List.nodup_cons] at hnd
      have hpend1 : ∀ s2 ∈ rest,
          lookupA (seq_run_step pev outcome st0 step).step_contexts s2.id =
            some pendingCtx := by
        intro s2 hs2
        have hne : s2.id ≠ step.id := fun heq =>
          hnd.1 (heq ▸ List.mem_map_of_mem SeqStep.id hs2)
        rw [seq_run_step_frame pev outcome st0 step s2.id hne]
        exact hpend s2 (List.mem_cons_of_mem _ hs2)
      obtain ⟨ihA, ihB⟩ := ih (seq_run_step pev outcome st0 step) hnd.2 hpend1
      constructor
      · intro st hst s2 hs2 sc hsc
        rcases List.mem_cons.mp hst with rfl | htail
        · rcases List.mem_cons.mp hs2 with rfl | hs2r
          · exact seq_run_step_retry_bound pev outcome st0 s2
              (hpend s2 (List.mem_cons_self _ _)) sc hsc
          · rw [hpend1 s2 hs2r] at hsc
            obtain rfl := (Option.some.inj hsc).symm
            exact Nat.zero_le _
        · rcases List.mem_cons.mp hs2 with rfl | hs2r
          · have hnm : s2.id ∉ rest.map SeqStep.id := hnd.1
            rw [seq_run_steps_frame pev outcome rest
              (seq_run_step pev outcome st0 s2) s2.id hnm st htail] at hsc
            exact seq_run_step_retry_bound pev outcome st0 s2
              (hpend s2 (List.mem_cons_self _ _)) sc hsc
          · exact ihA st htail s2 hs2r sc hsc
      · refine ⟨?_, ihB⟩
        intro sid sc hl hc
        exact seq_run_step_keep_completed pev outcome st0 step
          (fun sc0 h0 => by
            rw [hpend step (List.mem_cons_self _ _)] at h0
            obtain rfl := (Option.some.inj h0).symm
            rfl) sid sc hl hc

/-- C3: along any sequential execution seeded as `execute_workflow`
seeds it (every step context pending with `retry_count = 0`), with step
ids unique per the data model, every step's context at every trace
point keeps `retry_count` within the step's `on_failure` retry budget
(`max_retries`, default 3), and a step context that has reached
`completed` is found unchanged — in particular still `completed` — at
every later trace point; moreover `_handle_step_failure` either leaves
a step's `retry_count` untouched or, when its retry path increments it,
keeps it within that budget. -/
theorem c3_retry_bound_and_completed_sticky (pev : PyEvalOracle)
    (outcome : HandlerOracle) (steps : List SeqStep) (st0 : SeqExecState)
    (hnodup : (steps.map SeqStep.id).Nodup)
    (hinit : ∀ step ∈ steps,
      lookupA st0.step_contexts step.id = some pendingCtx) :
    (∀ st ∈ seq_run_steps pev outcome st0 steps, ∀ step ∈ steps, ∀ sc,
      lookupA st.step_contexts step.id = some sc →
      sc.retry_count ≤ eff_max_retries step) ∧
    (∀ (i j : Nat)
      (hi : i < (st0 :: seq_run_steps pev outcome st0 steps).length)
      (hj : j < (st0 :: seq_run_steps pev outcome st0 steps).length),
      i ≤ j → ∀ (sid : String) (sc : StepCtx),
      lookupA ((st0 :: seq_run_steps pev outcome st0 steps).get
        ⟨i, hi⟩).step_contexts sid = some sc →
      sc.status = .completed →
      lookupA ((st0 :: seq_run_steps pev outcome st0 steps).get
        ⟨j, hj⟩).step_contexts sid = some sc) ∧
    (∀ (st : SeqExecState) (step : SeqStep) (sc sc0 : StepCtx),
      lookupA (seq_handle_step_failure outcome st step).1.step_contexts
        step.id = some sc →
      lookupA st.step_contexts step.id = some sc0 →
      sc.retry_count = sc0.retry_count ∨
        sc.retry_count ≤ eff_max_retries step) := by
  obtain ⟨hA, hB⟩ := seq_run_steps_inv pev outcome steps st0 hnodup hinit
  refine ⟨hA, ?_, ?_⟩
  · intro i j hi hj hij sid sc hl hc
    exact frozenTrace_get _ hB i j hi hj hij sid sc hl hc
  · intro st step sc sc0 hsc h0
    exact seq_handle_step_failure_guard outcome st step sc hsc sc0 h0

/-- C3 witness: the retry-guard clause applied to a concrete failed step
with `retry_count = 1` under a policy `max_retries = 2` and an
always-failing handler — the count after the failure handler is 2, which
satisfies the bound. -/
theorem c3_retry_bound_witness :
    (⟨.failed, some "step error", 2, 3⟩ : StepCtx).retry_count =
        (⟨.failed, none, 1, 3⟩ : StepCtx).retry_count ∨
      (⟨.failed, some "step error", 2, 3⟩ : StepCtx).retry_count ≤
        eff_max_retries ⟨"s1", none, some "retry", some 2, none⟩ :=
  (c3_retry_bound_and_completed_sticky pyEvalFrag (fun _ _ => none)
      [⟨"s1", none, some "retry", some 2, none⟩]
      ⟨[], [("s1", pendingCtx)], [], [], .running, none⟩
      (by simp)
      (by
        intro step hstep
        rw [List.mem_singleton] at hstep
        subst hstep
        rfl)).2.2
    ⟨[], [("s1", ⟨.failed, none, 1, 3⟩)], [], [], .running, none⟩
    ⟨"s1", none, some "retry", some 2, none⟩
    ⟨.failed, some "step error", 2, 3⟩ ⟨.failed, none, 1, 3⟩
    (by rfl) (by rfl)

/-! ### C8 — visual-workflow acyclicity (workflow_orchestrator.py, lines
709-791, 1369-1394 and 1396-1434) -/

/-- The slice of a visual-workflow node dict that validation reads:
`node["id"]` and `node["type"]`. -/
structure VNode where
  id : String
  type_tag : String

/-- A visual-workflow edge dict: `edge["source"]` and `edge["target"]`. -/
structure VEdge where
  source : String
  target : String

/-- The `valid_node_types` list of `_validate_visual_workflow`. -/
def valid_node_types : List String :=
  ["ai_agent", "condition", "transform", "api_call", "user_input", "output"]

/-- The adjacency dict of `_has_cycles`, keys in insertion order. -/
def Graph : Type := List (String × List String)

/-- The key list of the adjacency dict. -/
def graphKeys (g : Graph) : List String := g.map Prod.fst

/-- First-occurrence deduplication, as the dict comprehension
`{node["id"]: [] for node in nodes}` produces its keys. -/
def dedupFirst : List String → List String
  | [] => []
  | x :: rest => x :: dedupFirst (rest.filter (fun y => decide (y ≠ x)))
termination_by l => l.length
decreasing_by
  simp only [List.length_cons]
  exact Nat.lt_succ_of_le (List.length_filter_le _ _)

/-- The dict comprehension `{node["id"]: [] for node in nodes}`. -/
def initGraph (ids : List String) : Graph :=
  (dedupFirst ids).map (fun nid => (nid, []))

/-- `graph[k].append(t)` on the adjacency dict (the caller has already
established the key, else the `KeyError` path is taken). -/
def appendAdj (g : Graph) (k t : String) : Graph :=
  match g with
  | [] => []
  | (k0, ts) :: rest =>
    if k0 = k then (k0, ts ++ [t]) :: rest
    else (k0, ts) :: appendAdj rest k t

/-- The `for edge in edges: graph[edge["source"]].append(edge["target"])`
loop; `none` is the `KeyError` on a source that is not a node id. -/
def buildGraph (g : Graph) : List VEdge → Option Graph
  | [] => some g
  | e :: rest =>
    if e.source ∈ graphKeys g then buildGraph (appendAdj g e.source e.target) rest
    else none

mutual
/-- The recursive `dfs(node)` of `_has_cycles`: mark the node visited
and on the recursion stack, walk its neighbours, and (on a `false`
return) leave the stack — modelled by value passing, since the source
removes the node from the mutable set before returning.  `none` models
the `KeyError` of `graph[node]` on an unknown node; the fuel only bounds
the recursion depth and is chosen large enough to never run out on the
graphs the source builds (proved below). -/
def dfsNode (g : Graph) : Nat → String → List String → List String →
    Option (Bool × List String)
  | 0, _, _, _ => none
  | fuel + 1, u, visited, recStack =>
    match lookupA g u with
    | none => none
    | some nbrs => dfsNbrs g fuel nbrs (u :: visited) (u :: recStack)
termination_by fuel _ _ _ => (fuel, 0, 0)

/-- The `for neighbor in graph[node]` loop of `dfs`. -/
def dfsNbrs (g : Graph) : Nat → List String → List String → List String →
    Option (Bool × List String)
  | _, [], visited, _ => some (false, visited)
  | fuel, n :: rest, visited, recStack =>
    if n ∈ visited then
      if n ∈ recStack then some (true, visited)
      else dfsNbrs g fuel rest visited recStack
    else
      match dfsNode g fuel n visited recStack with
      | none => none
      | some (true, vis2) => some (true, vis2)
      | some (false, vis2) => dfsNbrs g fuel rest vis2 recStack
termination_by fuel nbrs _ _ => (fuel, 1, nbrs.length)
end

/-- The recursion-depth bound used for the embedded `dfs` (one more
than the number of keys; each nested call enters an unvisited key). -/
def dfsFuel (g : Graph) : Nat := g.length + 1

/-- The `for node in graph` loop of `_has_cycles`. -/
def hcLoop (g : Graph) : List String → List String → Option Bool
  | [], _ => some false
  | k :: rest, visited =>
    if k ∈ visited then hcLoop g rest visited
    else
      match dfsNode g (dfsFuel g) k visited [] with
      | none => none
      | some (true, _) => some true
      | some (false, vis2) => hcLoop g rest vis2

/-- Model of `WorkflowOrchestrator._has_cycles`: build the adjacency
dict, run the DFS from every unvisited key; any exception (`KeyError`
on an unknown source or neighbour) is caught and yields `False`. -/
def has_cycles (nodes : List VNode) (edges : List VEdge) : Bool :=
  match buildGraph (initGraph (nodes.map VNode.id)) edges with
  | none => false
  | some g =>
    match hcLoop g (graphKeys g) [] with
    | none => false
    | some b => b

/-- Model of `WorkflowOrchestrator._validate_visual_workflow` (the
validation `create_visual_workflow` runs before persisting): reject on
a cycle, then on an invalid node type, then on an edge endpoint that is
not a node id. -/
def validate_visual_workflow (nodes : List VNode) (edges : List VEdge) :
    Except String Unit :=
  if has_cycles nodes edges then .error "Workflow contains cycles"
  else if !(nodes.all (fun n => decide (n.type_tag ∈ valid_node_types))) then
    .error "Invalid node type"
  else if !(edges.all (fun e => decide (e.source ∈ nodes.map VNode.id) &&
      decide (e.target ∈ nodes.map VNode.id))) then
    .error "Invalid edge"
  else .ok ()

/-- The directed-edge relation induced by the submitted edges. -/
def edgeRel (edges : List VEdge) (a b : String) : Prop :=
  ∃ e ∈ edges, e.source = a ∧ e.target = b

/-- The step relation of the built adjacency dict. -/
def stepRelG (g : Graph) (a b : String) : Prop :=
  ∃ ts, lookupA g a = some ts ∧ b ∈ ts

theorem graphKeys_appendAdj (g : Graph) (k t : String) :
    graphKeys (appendAdj g k t) = graphKeys g := by
  induction g with
  | nil => rfl
  | cons kv rest ih =>
    obtain ⟨k0, ts⟩ := kv
    rw [appendAdj]
    by_cases hk : k0 = k
    · rw [if_pos hk]; rfl
    · rw [if_neg hk]
      show k0 :: graphKeys (appendAdj rest k t) = k0 :: graphKeys rest
      rw [ih]

theorem lookupA_appendAdj_self {g : Graph} {s : String} {ts : List String}
    (h : lookupA g s = some ts) (t : String) :
    lookupA (appendAdj g s t) s = some (ts ++ [t]) := by
  induction g with
  | nil => simp [lookupA] at h
  | cons kv rest ih =>
    obtain ⟨k0, ts0⟩ := kv
    rw [lookupA] at h
    rw [appendAdj]
    by_cases hk : k0 = s
    · rw [if_pos hk] at h
      obtain rfl := Option.some.inj h
      rw [if_pos hk, lookupA, if_pos hk]
    · rw [if_neg hk] at h
      rw [if_neg hk, lookupA, if_neg hk]
      exact ih h

theorem lookupA_appendAdj_ne (g : Graph) {a s : String} (t : String)
    (hne : a ≠ s) : lookupA (appendAdj g s t) a = lookupA g a := by
  induction g with
  | nil => rfl
  | cons kv rest ih =>
    obtain ⟨k0, ts0⟩ := kv
    rw [appendAdj]
    by_cases hk : k0 = s
    · rw [if_pos hk, lookupA, lookupA,
        if_neg (by rw [hk]; exact fun h => hne h.symm),
        if_neg (by rw [hk]; exact fun h => hne h.symm)]
    · rw [if_neg hk, lookupA, lookupA]
      by_cases hk2 : k0 = a
      · rw [if_pos hk2, if_pos hk2]
      · rw [if_neg hk2, if_neg hk2, ih]

theorem mem_graphKeys_iff {g : Graph} {k : String} :
    k ∈ graphKeys g ↔ ∃ ts, lookupA g k = some ts := by
  constructor
  · intro hmem
    cases hlk : lookupA g k with
    | none => exact absurd hmem (lookupA_eq_none_iff.mp hlk)
    | some ts => exact ⟨ts, rfl⟩
  · intro ⟨ts, hts⟩
    by_contra hnm
    rw [lookupA_eq_none_iff.mpr hnm] at hts
    cases hts

theorem dedupFirst_mem_aux : ∀ (n : Nat) (l : List String), l.length ≤ n →
    ∀ k, (k ∈ dedupFirst l ↔ k ∈ l) := by
  intro n
  induction n with
  | zero =>
    intro l hl k
    cases l with
    | nil => rw [dedupFirst]
    | cons x rest => simp at hl
  | succ n ih =>
    intro l hl k
    cases l with
    | nil => rw [dedupFirst]
    | cons x rest =>
      rw [dedupFirst, List.mem_cons, List.mem_cons,
        ih _ (le_trans (List.length_filter_le _ _) (by simpa using hl)) k,
        List.mem_filter]
      by_cases hk : k = x
      · simp [hk]
      · simp [hk]

theorem dedupFirst_mem (l : List String) (k : String) :
    k ∈ dedupFirst l ↔ k ∈ l :=
  dedupFirst_mem_aux l.length l le_rfl k

theorem initGraph_keys (ids : List String) :
    graphKeys (initGraph ids) = dedupFirst ids := by
  rw [initGraph, graphKeys, List.map_map]
  exact List.map_id _

theorem lookup_map_nil_empty : ∀ (l : List String) (k : String)
    (ts : List String),
    lookupA (l.map fun nid => ((nid, []) : String × List String)) k =
      some ts → ts = [] := by
  intro l
  induction l with
  | nil =>
    intro k ts h
    rw [List.map_nil, lookupA] at h
    cases h
  | cons x rest ih =>
    intro k ts h
    rw [List.map_cons, lookupA] at h
    by_cases hk : x = k
    · rw [if_pos hk] at h
      exact (Option.some.inj h).symm
    · rw [if_neg hk] at h
      exact ih k ts h

theorem initGraph_lookup_empty {ids : List String} {k : String}
    {ts : List String} (h : lookupA (initGraph ids) k = some ts) : ts = [] := by
  rw [initGraph] at h
  exact lookup_map_nil_empty _ k ts h

theorem initGraph_no_step (ids : List String) (a b : String) :
    ¬ stepRelG (initGraph ids) a b := by
  intro ⟨ts, hts, hb⟩
  rw [initGraph_lookup_empty hts] at hb
  cases hb

theorem buildGraph_keys : ∀ (es : List VEdge) (g0 g : Graph),
    buildGraph g0 es = some g → graphKeys g = graphKeys g0 := by
  intro es
  induction es with
  | nil =>
    intro g0 g h
    rw [buildGraph] at h
    obtain rfl := Option.some.inj h
    rfl
  | cons e rest ih =>
    intro g0 g h
    rw [buildGraph] at h
    split at h
    · rw [ih _ _ h, graphKeys_appendAdj]
    · cases h

theorem buildGraph_isSome : ∀ (es : List VEdge) (g0 : Graph),
    (∀ e ∈ es, e.source ∈ graphKeys g0) → ∃ g, buildGraph g0 es = some g := by
  intro es
  induction es with
  | nil => intro g0 _; exact ⟨g0, rfl⟩
  | cons e rest ih =>
    intro g0 hwf
    rw [buildGraph, if_pos (hwf e (List.mem_cons_self _ _))]
    exact ih _ (fun e2 h2 => by
      rw [graphKeys_appendAdj]
      exact hwf e2 (List.mem_cons_of_mem _ h2))

theorem appendAdj_rel {g0 : Graph} {s : String} (t : String)
    (hs : s ∈ graphKeys g0) (a b : String) :
    stepRelG (appendAdj g0 s t) a b ↔
      stepRelG g0 a b ∨ (a = s ∧ b = t) := by
  obtain ⟨ts, hts⟩ := mem_graphKeys_iff.mp hs
  simp only [stepRelG]
  by_cases ha : a = s
  · subst ha
    constructor
    · intro h
      obtain ⟨ts2, hts2, hb⟩ := h
      rw [lookupA_appendAdj_self hts t] at hts2
      have hts2e : ts2 = ts ++ [t] := (Option.some.inj hts2).symm
      subst hts2e
      rcases List.mem_append.mp hb with hb1 | hb2
      · exact Or.inl ⟨ts, hts, hb1⟩
      · exact Or.inr ⟨rfl, by simpa using hb2⟩
    · intro h
      rcases h with ⟨ts2, hts2, hb⟩ | ⟨_, hbt⟩
      · rw [hts] at hts2
        have hte : ts2 = ts := (Option.some.inj hts2).symm
        rw [hte] at hb
        exact ⟨ts ++ [t], lookupA_appendAdj_self hts t,
          List.mem_append_left _ hb⟩
      · exact ⟨ts ++ [t], lookupA_appendAdj_self hts t, by rw [hbt]; simp⟩
  · rw [lookupA_appendAdj_ne g0 t ha]
    constructor
    · exact fun h => Or.inl h
    · intro h
      rcases h with h | ⟨has, _⟩
      · exact h
      · exact absurd has ha

theorem buildGraph_rel : ∀ (es : List VEdge) (g0 g : Graph),
    buildGraph g0 es = some g → ∀ a b,
      stepRelG g a b ↔
        stepRelG g0 a b ∨ ∃ e ∈ es, e.source = a ∧ e.target = b := by
  intro es
  induction es with
  | nil =>
    intro g0 g h a b
    rw [buildGraph] at h
    obtain rfl := Option.some.inj h
    simp
  | cons e rest ih =>
    intro g0 g h a b
    rw [buildGraph] at h
    split at h
    · next hs =>
      rw [ih _ _ h a b, appendAdj_rel e.target hs a b]
      constructor
      · intro hh
        rcases hh with (hg0 | ⟨ha, hb⟩) | ⟨e2, he2, hst⟩
        · exact Or.inl hg0
        · exact Or.inr ⟨e, List.mem_cons_self _ _, ha.symm, hb.symm⟩
        · exact Or.inr ⟨e2, List.mem_cons_of_mem _ he2, hst⟩
      · intro hh
        rcases hh with hg0 | ⟨e2, he2, hst⟩
        · exact Or.inl (Or.inl hg0)
        · rcases List.mem_cons.mp he2 with rfl | hmem
          · exact Or.inl (Or.inr ⟨hst.1.symm, hst.2.symm⟩)
          · exact Or.inr ⟨e2, hmem, hst⟩
    · cases h

/-- The number of graph keys not yet visited: the depth measure showing
the chosen fuel never runs out. -/
def ucount (g : Graph) (vis : List String) : Nat :=
  ((graphKeys g).filter (fun k => decide (k ∉ vis))).length

/-- Every adjacency target is itself a key (true of graphs built from
edges whose endpoints are node ids). -/
def ClosedG (g : Graph) : Prop :=
  ∀ u ts, lookupA g u = some ts → ∀ t ∈ ts, t ∈ graphKeys g

/-- The black vertices of the DFS: visited and off the recursion
stack. -/
def Black (vis rec : List String) (x : String) : Prop := x ∈ vis ∧ x ∉ rec

/-- A vertex set closed under the graph's steps. -/
def ClosedB (g : Graph) (S : String → Prop) : Prop :=
  ∀ a, S a → ∀ b, stepRelG g a b → S b

/-- No vertex of the set lies on a cycle. -/
def CycFreeB (g : Graph) (S : String → Prop) : Prop :=
  ∀ a, S a → ¬ Relation.TransGen (stepRelG g) a a

theorem closedB_congr {g : Graph} {S T : String → Prop}
    (h : ∀ x, S x ↔ T x) (hc : ClosedB g S) : ClosedB g T :=
  fun a ha b hab => (h b).mp (hc a ((h a).mpr ha) b hab)

theorem cycFreeB_congr {g : Graph} {S T : String → Prop}
    (h : ∀ x, S x ↔ T x) (hc : CycFreeB g S) : CycFreeB g T :=
  fun a ha => hc a ((h a).mpr ha)

theorem closedB_transGen {g : Graph} {S : String → Prop} (hc : ClosedB g S)
    {a b : String} (ha : S a) (h : Relation.TransGen (stepRelG g) a b) :
    S b := by
  induction h with
  | single hr => exact hc a ha _ hr
  | tail _ hr ih => exact hc _ ih _ hr

theorem closedB_reflTransGen {g : Graph} {S : String → Prop}
    (hc : ClosedB g S) {a b : String} (ha : S a)
    (h : Relation.ReflTransGen (stepRelG g) a b) : S b := by
  induction h with
  | refl => exact ha
  | tail _ hr ih => exact hc _ ih _ hr

theorem black_push {u : String} {vis rec : List String} (hu : u ∉ vis) :
    ∀ x, Black (u :: vis) (u :: rec) x ↔ Black vis rec x := by
  intro x
  constructor
  · intro ⟨hxv, hxr⟩
    have hxne : x ≠ u := fun he => hxr (he ▸ List.mem_cons_self u rec)
    exact ⟨(List.mem_cons.mp hxv).resolve_left hxne,
      fun hr => hxr (List.mem_cons_of_mem _ hr)⟩
  · intro ⟨hxv, hxr⟩
    have hxne : x ≠ u := fun he => hu (he ▸ hxv)
    exact ⟨List.mem_cons_of_mem _ hxv,
      fun hr => (List.mem_cons.mp hr).elim hxne hxr⟩

/-- Visited-set monotonicity of the DFS. -/
def PMono (g : Graph) (fuel : Nat) : Prop :=
  ∀ u vis rec b vis2, dfsNode g fuel u vis rec = some (b, vis2) →
    vis ⊆ vis2 ∧ u ∈ vis2

theorem dfsNbrs_mono {g : Graph} {fuel : Nat} (hP : PMono g fuel) :
    ∀ nbrs vis rec b vis2, dfsNbrs g fuel nbrs vis rec = some (b, vis2) →
      vis ⊆ vis2 := by
  intro nbrs
  induction nbrs with
  | nil =>
    intro vis rec b vis2 h
    rw [dfsNbrs] at h
    cases h
    exact fun x hx => hx
  | cons n rest ih =>
    intro vis rec b vis2 h
    rw [dfsNbrs] at h
    by_cases hv : n ∈ vis
    · rw [if_pos hv] at h
      by_cases hr : n ∈ rec
      · rw [if_pos hr] at h
        cases h
        exact fun x hx => hx
      · rw [if_neg hr] at h
        exact ih vis rec b vis2 h
    · rw [if_neg hv] at h
      cases hd : dfsNode g fuel n vis rec with
      | none =>
        rw [hd] at h
        exact Option.noConfusion h
      | some pr =>
        obtain ⟨b2, vis3⟩ := pr
        rw [hd] at h
        cases b2
        · have h2 : dfsNbrs g fuel rest vis3 rec = some (b, vis2) := h
          exact fun x hx =>
            ih vis3 rec b vis2 h2 ((hP n vis rec false vis3 hd).1 hx)
        · have h2 : (some (true, vis3) : Option (Bool × List String)) =
              some (b, vis2) := h
          have hv2 : vis2 = vis3 := (congrArg Prod.snd (Option.some.inj h2)).symm
          rw [hv2]
          exact (hP n vis rec true vis3 hd).1

theorem dfsNode_mono (g : Graph) : ∀ fuel, PMono g fuel := by
  intro fuel
  induction fuel with
  | zero =>
    intro u vis rec b vis2 h
    rw [dfsNode] at h
    exact Option.noConfusion h
  | succ fuel ih =>
    intro u vis rec b vis2 h
    rw [dfsNode] at h
    cases hlk : lookupA g u with
    | none =>
      rw [hlk] at h
      exact Option.noConfusion h
    | some nbrs =>
      rw [hlk] at h
      have hsub := dfsNbrs_mono ih nbrs (u :: vis) (u :: rec) b vis2 h
      exact ⟨fun x hx => hsub (List.mem_cons_of_mem _ hx),
        hsub (List.mem_cons_self _ _)⟩

theorem filter_length_mono : ∀ (l : List String) (p q : String → Bool),
    (∀ x, p x = true → q x = true) →
    (l.filter p).length ≤ (l.filter q).length := by
  intro l p q h
  induction l with
  | nil => exact le_rfl
  | cons x rest ih =>
    by_cases hp : p x = true
    · rw [List.filter_cons_of_pos hp, List.filter_cons_of_pos (h x hp)]
      simpa using ih
    · rw [List.filter_cons_of_neg (by simpa using hp)]
      by_cases hq : q x = true
      · rw [List.filter_cons_of_pos hq]
        exact le_trans ih (by simp)
      · rw [List.filter_cons_of_neg (by simpa using hq)]
        exact ih

theorem ucount_mono {g : Graph} {vis vis2 : List String} (h : vis ⊆ vis2) :
    ucount g vis2 ≤ ucount g vis := by
  apply filter_length_mono
  intro x hx
  simp only [decide_eq_true_iff] at hx ⊢
  exact fun hmem => hx (h hmem)

theorem filter_notmem_cons_lt : ∀ (l : List String) (u : String)
    (vis : List String), u ∈ l → u ∉ vis →
    (l.filter (fun k => decide (k ∉ u :: vis))).length <
      (l.filter (fun k => decide (k ∉ vis))).length := by
  intro l
  induction l with
  | nil => intro u vis h; cases h
  | cons x rest ih =>
    intro u vis hmem hu
    by_cases hx : x = u
    · subst hx
      rw [List.filter_cons_of_neg (by simp),
        List.filter_cons_of_pos (by simpa using hu)]
      have hmono := filter_length_mono rest
        (fun k => decide (k ∉ x :: vis)) (fun k => decide (k ∉ vis))
        (fun k hk => by
          simp only [decide_eq_true_iff, List.mem_cons, not_or] at hk ⊢
          exact hk.2)
      simp only [List.length_cons]
      omega
    · have hmem2 : u ∈ rest :=
        (List.mem_cons.mp hmem).resolve_left (fun he => hx he.symm)
      by_cases hxv : x ∈ vis
      · rw [List.filter_cons_of_neg (by simp [hxv]),
          List.filter_cons_of_neg (by simp [hxv])]
        exact ih u vis hmem2 hu
      · rw [List.filter_cons_of_pos (by simp [hxv, hx]),
          List.filter_cons_of_pos (by simp [hxv])]
        simpa using ih u vis hmem2 hu

theorem ucount_lt_of_cons {g : Graph} {u : String} {vis : List String}
    (hu : u ∈ graphKeys g) (hv : u ∉ vis) :
    ucount g (u :: vis) < ucount g vis :=
  filter_notmem_cons_lt (graphKeys g) u vis hu hv

theorem ucount_le_len (g : Graph) (vis : List String) :
    ucount g vis ≤ g.length := by
  rw [ucount]
  calc ((graphKeys g).filter _).length ≤ (graphKeys g).length :=
        List.length_filter_le _ _
    _ = g.length := List.length_map _ _

/-- The DFS never runs out of the chosen fuel nor hits a `KeyError` on
a closed graph. -/
def PSuf (g : Graph) (fuel : Nat) : Prop :=
  ∀ u vis rec, u ∈ graphKeys g → u ∉ vis → ucount g vis ≤ fuel →
    dfsNode g fuel u vis rec ≠ none

theorem ucount_pos {g : Graph} {u : String} {vis : List String}
    (hu : u ∈ graphKeys g) (hv : u ∉ vis) : 1 ≤ ucount g vis := by
  have : u ∈ (graphKeys g).filter (fun k => decide (k ∉ vis)) :=
    List.mem_filter.mpr ⟨hu, by simpa using hv⟩
  exact List.length_pos_of_mem this

theorem dfsNbrs_suf {g : Graph} {fuel : Nat} (hcg : ClosedG g)
    (hP : PSuf g fuel) (hPm : PMono g fuel) :
    ∀ nbrs vis rec, (∀ n ∈ nbrs, n ∈ graphKeys g) → ucount g vis ≤ fuel →
      dfsNbrs g fuel nbrs vis rec ≠ none := by
  intro nbrs
  induction nbrs with
  | nil =>
    intro vis rec _ _
    rw [dfsNbrs]
    simp
  | cons n rest ih =>
    intro vis rec hnb hf
    rw [dfsNbrs]
    by_cases hv : n ∈ vis
    · rw [if_pos hv]
      by_cases hr : n ∈ rec
      · rw [if_pos hr]; simp
      · rw [if_neg hr]
        exact ih vis rec (fun m hm => hnb m (List.mem_cons_of_mem _ hm)) hf
    · rw [if_neg hv]
      cases hd : dfsNode g fuel n vis rec with
      | none =>
        exact absurd hd
          (hP n vis rec (hnb n (List.mem_cons_self _ _)) hv hf)
      | some pr =>
        obtain ⟨b, vis2⟩ := pr
        cases b
        · show dfsNbrs g fuel rest vis2 rec ≠ none
          exact ih vis2 rec (fun m hm => hnb m (List.mem_cons_of_mem _ hm))
            (le_trans (ucount_mono (hPm n vis rec false vis2 hd).1) hf)
        · simp

theorem dfsNode_suf {g : Graph} (hcg : ClosedG g) : ∀ fuel, PSuf g fuel := by
  intro fuel
  induction fuel with
  | zero =>
    intro u vis rec hu hv hf
    have := ucount_pos hu hv
    omega
  | succ fuel ih =>
    intro u vis rec hu hv hf
    rw [dfsNode]
    obtain ⟨nbrs, hnbrs⟩ := mem_graphKeys_iff.mp hu
    rw [hnbrs]
    show dfsNbrs g fuel nbrs (u :: vis) (u :: rec) ≠ none
    apply dfsNbrs_suf hcg ih (dfsNode_mono g fuel)
    · intro n hn
      exact hcg u nbrs hnbrs n hn
    · have hlt := ucount_lt_of_cons hu hv
      omega

/-- The central DFS invariant: a `false` return extends the visited set
and keeps the black region closed and cycle-free. -/
def PInv (g : Graph) (fuel : Nat) : Prop :=
  ∀ u vis rec vis2, rec ⊆ vis → u ∉ vis →
    ClosedB g (Black vis rec) → CycFreeB g (Black vis rec) →
    dfsNode g fuel u vis rec = some (false, vis2) →
    vis ⊆ vis2 ∧ u ∈ vis2 ∧ ClosedB g (Black vis2 rec) ∧
      CycFreeB g (Black vis2 rec)

theorem dfsNbrs_inv {g : Graph} {fuel : Nat} (hP : PInv g fuel)
    (hPm : PMono g fuel) :
    ∀ nbrs vis rec vis2, rec ⊆ vis →
      ClosedB g (Black vis rec) → CycFreeB g (Black vis rec) →
      dfsNbrs g fuel nbrs vis rec = some (false, vis2) →
      vis ⊆ vis2 ∧ ClosedB g (Black vis2 rec) ∧ CycFreeB g (Black vis2 rec) ∧
        ∀ n ∈ nbrs, n ∈ vis2 ∧ n ∉ rec := by
  intro nbrs
  induction nbrs with
  | nil =>
    intro vis rec vis2 _ hcl hcf h
    rw [dfsNbrs] at h
    cases h
    exact ⟨fun x hx => hx, hcl, hcf, by simp⟩
  | cons n rest ih =>
    intro vis rec vis2 hrv hcl hcf h
    rw [dfsNbrs] at h
    by_cases hv : n ∈ vis
    · rw [if_pos hv] at h
      by_cases hr : n ∈ rec
      · rw [if_pos hr] at h
        cases h
      · rw [if_neg hr] at h
        obtain ⟨hsub, hcl2, hcf2, hrest⟩ := ih vis rec vis2 hrv hcl hcf h
        refine ⟨hsub, hcl2, hcf2, fun m hm => ?_⟩
        rcases List.mem_cons.mp hm with rfl | hm2
        · exact ⟨hsub hv, hr⟩
        · exact hrest m hm2
    · rw [if_neg hv] at h
      cases hd : dfsNode g fuel n vis rec with
      | none =>
        rw [hd] at h
        exact Option.noConfusion h
      | some pr =>
        obtain ⟨b2, vis3⟩ := pr
        rw [hd] at h
        cases b2
        · have h2 : dfsNbrs g fuel rest vis3 rec = some (false, vis2) := h
          obtain ⟨hsub3, hn3, hcl3, hcf3⟩ :=
            hP n vis rec vis3 hrv hv hcl hcf hd
          obtain ⟨hsub, hcl2, hcf2, hrest⟩ :=
            ih vis3 rec vis2 (fun x hx => hsub3 (hrv hx)) hcl3 hcf3 h2
          refine ⟨fun x hx => hsub (hsub3 hx), hcl2, hcf2, fun m hm => ?_⟩
          rcases List.mem_cons.mp hm with rfl | hm2
          · exact ⟨hsub hn3, fun hrr => hv (hrv hrr)⟩
          · exact hrest m hm2
        · have h2 : (some (true, vis3) : Option (Bool × List String)) =
              some (false, vis2) := h
          exact absurd h2 (by simp)

theorem dfsNode_inv (g : Graph) : ∀ fuel, PInv g fuel := by
  intro fuel
  induction fuel with
  | zero =>
    intro u vis rec vis2 _ _ _ _ h
    rw [dfsNode] at h
    exact Option.noConfusion h
  | succ fuel ih =>
    intro u vis rec vis2 hrv hu hcl hcf h
    rw [dfsNode] at h
    cases heq : lookupA g u with
    | none =>
      rw [heq] at h
      exact Option.noConfusion h
    | some nbrs =>
      rw [heq] at h
      have hbeq := @black_push u vis rec hu
      have hcl1 : ClosedB g (Black (u :: vis) (u :: rec)) :=
        closedB_congr (fun x => (hbeq x).symm) hcl
      have hcf1 : CycFreeB g (Black (u :: vis) (u :: rec)) :=
        cycFreeB_congr (fun x => (hbeq x).symm) hcf
      have hrv1 : (u :: rec) ⊆ (u :: vis) := by
        intro x hx
        rcases List.mem_cons.mp hx with rfl | hx2
        · exact List.mem_cons_self _ _
        · exact List.mem_cons_of_mem _ (hrv hx2)
      obtain ⟨hsub1, hcl2, hcf2, hnb⟩ :=
        dfsNbrs_inv ih (dfsNode_mono g fuel) nbrs (u :: vis) (u :: rec) vis2
          hrv1 hcl1 hcf1 h
      have husub : vis ⊆ vis2 := fun x hx => hsub1 (List.mem_cons_of_mem _ hx)
      have huin : u ∈ vis2 := hsub1 (List.mem_cons_self _ _)
      refine ⟨husub, huin, ?_, ?_⟩
      · intro a ha b hab
        obtain ⟨hav, har⟩ := ha
        by_cases hau : a = u
        · subst hau
          obtain ⟨ts, hts, hbts⟩ := hab
          rw [heq] at hts
          have htse : ts = nbrs := (Option.some.inj hts).symm
          rw [htse] at hbts
          have hb := hnb b hbts
          exact ⟨hb.1, fun hbr => hb.2 (List.mem_cons_of_mem _ hbr)⟩
        · have haB : Black vis2 (u :: rec) a :=
            ⟨hav, fun hrr => (List.mem_cons.mp hrr).elim hau har⟩
          have hbb := hcl2 a haB b hab
          exact ⟨hbb.1, fun hbr => hbb.2 (List.mem_cons_of_mem _ hbr)⟩
      · intro a ha hcyc
        obtain ⟨hav, har⟩ := ha
        by_cases hau : a = u
        · rw [hau] at hcyc
          obtain ⟨c, hstep, hrt⟩ := Relation.TransGen.head'_iff.mp hcyc
          obtain ⟨ts, hts, hcts⟩ := hstep
          rw [heq] at hts
          have htse : ts = nbrs := (Option.some.inj hts).symm
          rw [htse] at hcts
          have hcB : Black vis2 (u :: rec) c :=
            ⟨(hnb c hcts).1, (hnb c hcts).2⟩
          have := closedB_reflTransGen hcl2 hcB hrt
          exact this.2 (List.mem_cons_self _ _)
        · have haB : Black vis2 (u :: rec) a :=
            ⟨hav, fun hrr => (List.mem_cons.mp hrr).elim hau har⟩
          exact hcf2 a haB hcyc

/-- On a closed graph whose scanned keys are graph keys, the
`for node in graph` loop never raises: the fuel suffices and every
`graph[...]` lookup succeeds. -/
theorem hcLoop_ne_none {g : Graph} (hcg : ClosedG g) :
    ∀ keys vis, (∀ k ∈ keys, k ∈ graphKeys g) → hcLoop g keys vis ≠ none := by
  intro keys
  induction keys with
  | nil =>
    intro vis _
    rw [hcLoop]
    simp
  | cons k rest ih =>
    intro vis hk
    rw [hcLoop]
    by_cases hv : k ∈ vis
    · rw [if_pos hv]
      exact ih vis (fun m hm => hk m (List.mem_cons_of_mem _ hm))
    · rw [if_neg hv]
      cases hd : dfsNode g (dfsFuel g) k vis [] with
      | none =>
        have hf : ucount g vis ≤ dfsFuel g := by
          have := ucount_le_len g vis
          rw [dfsFuel]
          omega
        exact absurd hd
          (dfsNode_suf hcg (dfsFuel g) k vis []
            (hk k (List.mem_cons_self _ _)) hv hf)
      | some pr =>
        obtain ⟨b, vis2⟩ := pr
        cases b
        · show hcLoop g rest vis2 ≠ none
          exact ih vis2 (fun m hm => hk m (List.mem_cons_of_mem _ hm))
        · simp

/-- A `False` result of the `for node in graph` loop shows every vertex
that is a scanned key or already visited lies on no cycle. -/
theorem hcLoop_false {g : Graph} :
    ∀ keys vis, (∀ k ∈ keys, k ∈ graphKeys g) →
      ClosedB g (fun x => x ∈ vis) → CycFreeB g (fun x => x ∈ vis) →
      hcLoop g keys vis = some false →
      ∀ a, (a ∈ keys ∨ a ∈ vis) → ¬ Relation.TransGen (stepRelG g) a a := by
  intro keys
  induction keys with
  | nil =>
    intro vis _ _ hcf _ a ha
    exact hcf a (ha.resolve_left (List.not_mem_nil a))
  | cons k rest ih =>
    intro vis hk hcl hcf h
    rw [hcLoop] at h
    by_cases hv : k ∈ vis
    · rw [if_pos hv] at h
      have ihv := ih vis (fun m hm => hk m (List.mem_cons_of_mem _ hm))
        hcl hcf h
      intro a ha
      rcases ha with hak | hav
      · rcases List.mem_cons.mp hak with rfl | ham
        · exact ihv a (Or.inr hv)
        · exact ihv a (Or.inl ham)
      · exact ihv a (Or.inr hav)
    · rw [if_neg hv] at h
      cases hd : dfsNode g (dfsFuel g) k vis [] with
      | none =>
        rw [hd] at h
        exact Option.noConfusion h
      | some pr =>
        obtain ⟨b, vis2⟩ := pr
        rw [hd] at h
        cases b
        · have h2 : hcLoop g rest vis2 = some false := h
          have hbeq : ∀ x, (x ∈ vis) ↔ Black vis [] x := by
            intro x
            exact ⟨fun hx => ⟨hx, List.not_mem_nil x⟩, fun hx => hx.1⟩
          obtain ⟨hsub, hkin, hcl2, hcf2⟩ :=
            dfsNode_inv g (dfsFuel g) k vis [] vis2
              (List.nil_subset vis) hv
              (closedB_congr hbeq hcl) (cycFreeB_congr hbeq hcf) hd
          have hbeq2 : ∀ x, Black vis2 [] x ↔ (x ∈ vis2) := by
            intro x
            exact ⟨fun hx => hx.1, fun hx => ⟨hx, List.not_mem_nil x⟩⟩
          have ihv := ih vis2 (fun m hm => hk m (List.mem_cons_of_mem _ hm))
            (closedB_congr hbeq2 hcl2) (cycFreeB_congr hbeq2 hcf2) h2
          intro a ha
          rcases ha with hak | hav
          · rcases List.mem_cons.mp hak with rfl | ham
            · exact ihv a (Or.inr hkin)
            · exact ihv a (Or.inl ham)
          · exact ihv a (Or.inr (hsub hav))
        · have h2 : (some true : Option Bool) = some false := h
          exact absurd h2 (by simp)

/-- C8: the claim's two halves in one statement — a node/edge submission
accepted by `_validate_visual_workflow` (the validation visual-workflow
creation runs) induces an acyclic directed edge graph, no vertex
reaching itself through the submitted edges; contrapositively, creation
fails on every submission whose induced graph contains a cycle. -/
theorem c8_acyclicity (nodes : List VNode) (edges : List VEdge)
    (hok : validate_visual_workflow nodes edges = .ok ()) :
    ∀ v, ¬ Relation.TransGen (edgeRel edges) v v := by
  rw [validate_visual_workflow] at hok
  split at hok
  · exact Except.noConfusion hok
  split at hok
  · exact Except.noConfusion hok
  split at hok
  · exact Except.noConfusion hok
  next hcyc _ hedges =>
  have hc : has_cycles nodes edges = false := by simpa using hcyc
  have hall : edges.all (fun e => decide (e.source ∈ nodes.map VNode.id) &&
      decide (e.target ∈ nodes.map VNode.id)) = true := by
    cases hx : edges.all (fun e => decide (e.source ∈ nodes.map VNode.id) &&
        decide (e.target ∈ nodes.map VNode.id))
    · rw [hx] at hedges
      simp at hedges
    · rfl
  have hWF : ∀ e ∈ edges, e.source ∈ nodes.map VNode.id ∧
      e.target ∈ nodes.map VNode.id := by
    intro e he
    have h2 := List.all_eq_true.mp hall e he
    simp only [Bool.and_eq_true, decide_eq_true_eq] at h2
    exact h2
  have hkeys0 : ∀ x, x ∈ graphKeys (initGraph (nodes.map VNode.id)) ↔
      x ∈ nodes.map VNode.id := by
    intro x
    rw [initGraph_keys]
    exact dedupFirst_mem _ x
  have hsrc : ∀ e ∈ edges, e.source ∈ graphKeys (initGraph
      (nodes.map VNode.id)) :=
    fun e he => (hkeys0 _).mpr (hWF e he).1
  obtain ⟨g, hg⟩ := buildGraph_isSome edges _ hsrc
  have hkeyiff : ∀ x, x ∈ graphKeys g ↔ x ∈ nodes.map VNode.id := by
    intro x
    rw [buildGraph_keys edges _ g hg]
    exact hkeys0 x
  have hrel : ∀ a b, stepRelG g a b ↔ edgeRel edges a b := by
    intro a b
    rw [buildGraph_rel edges _ g hg a b]
    constructor
    · intro hh
      rcases hh with h0 | h1
      · exact absurd h0 (initGraph_no_step _ a b)
      · exact h1
    · exact fun hh => Or.inr hh
  have hcg : ClosedG g := by
    intro u ts hts t ht
    obtain ⟨e, he, _, het⟩ := (hrel u t).mp ⟨ts, hts, ht⟩
    exact (hkeyiff t).mpr (het ▸ (hWF e he).2)
  simp only [has_cycles] at hc
  rw [hg] at hc
  have hc2 : (match hcLoop g (graphKeys g) [] with
      | none => false
      | some b => b) = false := hc
  have hnn := hcLoop_ne_none hcg (graphKeys g) [] (fun k hk => hk)
  cases hl : hcLoop g (graphKeys g) [] with
  | none => exact absurd hl hnn
  | some b =>
    rw [hl] at hc2
    have hb : b = false := hc2
    rw [hb] at hl
    have hfalse := hcLoop_false (graphKeys g) [] (fun k hk => hk)
      (fun a ha => absurd ha (List.not_mem_nil a))
      (fun a ha => absurd ha (List.not_mem_nil a)) hl
    intro v hcyc2
    have hcycG : Relation.TransGen (stepRelG g) v v :=
      Relation.TransGen.mono (fun x y hxy => (hrel x y).mpr hxy) hcyc2
    obtain ⟨c, hstep, _⟩ := Relation.TransGen.head'_iff.mp hcyc2
    obtain ⟨e, he, hes, _⟩ := hstep
    have hvk : v ∈ graphKeys g := (hkeyiff v).mpr (hes ▸ (hWF e he).1)
    exact hfalse v (Or.inl hvk) hcycG

/-- The C8 theorem at a concrete accepted workflow: two nodes joined by
one edge pass validation, and its source node lies on no cycle. -/
theorem c8_acyclicity_witness :
    validate_visual_workflow [⟨"A", "ai_agent"⟩, ⟨"B", "output"⟩]
        [⟨"A", "B"⟩] = .ok () ∧
      ¬ Relation.TransGen (edgeRel [⟨"A", "B"⟩]) "A" "A" := by
  have hok : validate_visual_workflow [⟨"A", "ai_agent"⟩, ⟨"B", "output"⟩]
      [⟨"A", "B"⟩] = .ok () := by
    simp [validate_visual_workflow, has_cycles, initGraph, dedupFirst,
      buildGraph, graphKeys, appendAdj, hcLoop, dfsFuel, dfsNode, dfsNbrs,
      lookupA, valid_node_types]
  exact ⟨hok,
    c8_acyclicity [⟨"A", "ai_agent"⟩, ⟨"B", "output"⟩] [⟨"A", "B"⟩] hok "A"⟩

end Chainbot
